import Mathlib

/-
Verification development for smbroadley/fivewords (src/main.rs).

The program is embedded shallowly, following the source in release-mode
semantics:
* a character is a Unicode codepoint (`Nat`); a line is a `List Nat` of
  codepoints; `str::len()` is the summed UTF-8 width of the codepoints;
* `u32` values are plain `Nat` (every value the program builds is < 2^32);
  the wrapping `u8` subtraction in `ZChar::from` and the shift-amount
  masking of `1u32 << z` are written out explicitly (`% 256`, `% 32`);
* a runtime panic (out-of-bounds indexing of the 26-entry `freq` array)
  is modelled by `Option`: `none` means the run aborts;
* `HashSet<u32>` is a list of masks with membership, `HashMap<u32, ZWord>`
  is an association list where insertion conses (so `List.lookup`, which
  returns the first hit, gives the overwrite semantics of `insert`);
* `freq.sort_unstable_by_key(|x| x.1)` is modelled by a stable insertion
  sort.  The Rust sort is unstable, so the order of letters with equal
  counts is unspecified there; every theorem below that depends on the
  sort uses only that the result is a sorted permutation, and every
  concrete input used in a counterexample or witness has pairwise
  distinct letter counts, for which all correct sorts agree;
* the rayon seed loop `(0..27).into_par_iter()` emits per-seed result
  lists; inter-seed output interleaving is unspecified in the program, so
  claims are stated per seed or over the collection of all seeds.
-/

/-- `ZChar::from` step 1: `char::to_ascii_lowercase` on a codepoint. -/
def toAsciiLower (c : Nat) : Nat :=
  if 65 ≤ c ∧ c ≤ 90 then c + 32 else c

/-- `ZChar::from(c)`: `(c.to_ascii_lowercase() as u8) - b'a'` where the cast
truncates to the low byte and the subtraction wraps (release mode). -/
def zcharFrom (c : Nat) : Nat :=
  (toAsciiLower c % 256 + 159) % 256

/-- `ZChar::mask`: `1u32 << z`; in release mode the shift amount is taken
mod 32. -/
def zmask (z : Nat) : Nat :=
  2 ^ (z % 32)

/-- UTF-8 encoded width of one codepoint. -/
def utf8Len (c : Nat) : Nat :=
  if c < 128 then 1 else if c < 2048 then 2 else if c < 65536 then 3 else 4

/-- `str::len()`: byte length of a line. -/
def byteLen (l : List Nat) : Nat :=
  (l.map utf8Len).sum

/-- State accumulated by the word-indexing loop in `process`:
`seen` masks, retained `words` (each a `ZWord`, i.e. 5 letter codes), and
the 26 per-letter frequency counts. -/
structure FilterSt where
  seen : List Nat
  words : List (List Nat)
  freq : List Nat
deriving DecidableEq

/-- The per-character loop of `process` over one line.  Result:
`none` models the panic on `freq[z.ord()]` when `z.ord() ≥ 26`;
`some (freq', none)` models `continue 'index_words` (repeated letter);
`some (freq', some (bits, zwrd))` is normal completion of the line. -/
def procLine : List Nat → Nat → Nat → List Nat → List Nat →
    Option (List Nat × Option (Nat × List Nat))
  | [], _, bits, zwrd, freq => some (freq, some (bits, zwrd))
  | c :: cs, i, bits, zwrd, freq =>
    let z := zcharFrom c
    let b := zmask z
    if bits &&& b ≠ 0 then some (freq, none)
    else if z < 26 then
      procLine cs (i + 1) (bits ||| b) (zwrd.set i z) (freq.set z (freq.getD z 0 + 1))
    else none

/-- One iteration of `'index_words`: skip lines whose byte length is not 5,
then run the character loop; on completion dedup anagrams through `seen`. -/
def stepLine (st : FilterSt) (line : List Nat) : Option FilterSt :=
  if byteLen line ≠ 5 then some st else
  match procLine line 0 0 [0, 0, 0, 0, 0] st.freq with
  | none => none
  | some (freq1, none) => some ⟨st.seen, st.words, freq1⟩
  | some (freq1, some (bits, zwrd)) =>
    if bits ∈ st.seen then some ⟨st.seen, st.words, freq1⟩
    else some ⟨bits :: st.seen, st.words ++ [zwrd], freq1⟩

/-- The whole `'index_words` loop from a given state. -/
def indexWords : FilterSt → List (List Nat) → Option FilterSt
  | st, [] => some st
  | st, l :: ls =>
    match stepLine st l with
    | none => none
    | some st1 => indexWords st1 ls

/-- Initial state: empty `seen`/`words`, all 26 counts zero. -/
def initSt : FilterSt :=
  ⟨[], [], List.replicate 26 0⟩

/-- The filtering phase of `process` on the input lines. -/
def filterRun (lines : List (List Nat)) : Option FilterSt :=
  indexWords initSt lines

/-- The 26 `(letter, count)` pairs of the `freq` array before sorting. -/
def freqPairs (freq : List Nat) : List (Nat × Nat) :=
  (List.range 26).map fun i => (i, freq.getD i 0)

/-- Stable insertion of one pair into a list sorted by count. -/
def insertPair (x : Nat × Nat) : List (Nat × Nat) → List (Nat × Nat)
  | [] => [x]
  | y :: ys => if x.2 ≤ y.2 then x :: y :: ys else y :: insertPair x ys

/-- Model of `freq.sort_unstable_by_key(|x| x.1)`: sort the pairs by
ascending count (see the header comment about tie order). -/
def sortPairs : List (Nat × Nat) → List (Nat × Nat)
  | [] => []
  | x :: xs => insertPair x (sortPairs xs)

/-- The `mask_lut` construction: position `i` of the sorted frequency list
assigns `(1 << i, i)` to slot `z` for the letter `z` found there. -/
def maskLutAux : List (Nat × Nat) → Nat → List (Nat × Nat) → List (Nat × Nat)
  | [], _, lut => lut
  | p :: rest, i, lut => maskLutAux rest (i + 1) (lut.set p.1 (2 ^ i, i))

/-- `mask_lut` built from the sorted frequency pairs over the default
array of 26 `(0, 0)` entries. -/
def maskLut (sorted : List (Nat × Nat)) : List (Nat × Nat) :=
  maskLutAux sorted 0 (List.replicate 26 (0, 0))

/-- `new_bits` of a word: OR of the remapped bit values of its letters. -/
def remapMask (lut : List (Nat × Nat)) (w : List Nat) : Nat :=
  w.foldl (fun acc z => acc ||| (lut.getD z (0, 0)).1) 0

/-- `lowbit` of a word: the minimum remapped bit position of its letters,
starting from 26. -/
def lowbitOf (lut : List (Nat × Nat)) (w : List Nat) : Nat :=
  w.foldl (fun acc z => min acc (lut.getD z (0, 0)).2) 26

/-- The two lookup structures built per retained word: the per-lowbit
buckets `lbit_lut` and the mask-to-word table `word_lut`. -/
structure Luts where
  buckets : List (List Nat)
  wlut : List (Nat × List Nat)
deriving DecidableEq

/-- The loop that fills `lbit_lut` and `word_lut` from the retained words. -/
def buildLuts (lut : List (Nat × Nat)) : List (List Nat) → Luts → Luts
  | [], acc => acc
  | w :: ws, acc =>
    let nb := remapMask lut w
    let lb := lowbitOf lut w
    buildLuts lut ws
      ⟨acc.buckets.set lb (acc.buckets.getD lb [] ++ [nb]), (nb, w) :: acc.wlut⟩

/-- `u32::trailing_ones` with explicit fuel 32 (enough for any `u32`). -/
def trailingOnesAux : Nat → Nat → Nat
  | 0, _ => 0
  | fuel + 1, m => if m % 2 = 1 then trailingOnesAux fuel (m / 2) + 1 else 0

/-- `mask.trailing_ones()` for the 32-bit masks of the program. -/
def trailingOnes (m : Nat) : Nat :=
  trailingOnesAux 32 m

/-- Population count with explicit fuel 32 (enough for any `u32`). -/
def pcAux : Nat → Nat → Nat
  | 0, _ => 0
  | fuel + 1, m => m % 2 + pcAux fuel (m / 2)

/-- `u32::count_ones` for the 32-bit masks of the program. -/
def popcount (m : Nat) : Nat :=
  pcAux 32 m

/-- The recursive `search`, modelled with `fuel = 5 - depth`; `sel` is the
prefix `selected[0..depth]`.  A call at `depth == 5` (fuel 0) reports the
five selected masks; otherwise the bucket of the lowest free bit is
scanned and every mask disjoint from the accumulated one is tried. -/
def searchF (buckets : List (List Nat)) : Nat → List Nat → Nat → List (List Nat)
  | 0, sel, _ => [sel]
  | fuel + 1, sel, mask =>
    (buckets.getD (trailingOnes mask) []).foldl
      (fun acc bits =>
        if mask &&& bits = 0 then
          acc ++ searchF buckets fuel (sel ++ [bits]) (mask ||| bits)
        else acc) []

/-- Everything `process` builds before the seed loop. -/
structure Pipe where
  fst : FilterSt
  sorted : List (Nat × Nat)
  mlut : List (Nat × Nat)
  buckets : List (List Nat)
  wlut : List (Nat × List Nat)
deriving DecidableEq

/-- The sorted frequency pairs built from the filter state. -/
def sortedOf (st : FilterSt) : List (Nat × Nat) :=
  sortPairs (freqPairs st.freq)

/-- The `mask_lut` built from the filter state. -/
def mlutOf (st : FilterSt) : List (Nat × Nat) :=
  maskLut (sortedOf st)

/-- The `lbit_lut` buckets and `word_lut` built from the filter state. -/
def lutsOf (st : FilterSt) : Luts :=
  buildLuts (mlutOf st) st.words ⟨List.replicate 26 [], []⟩

/-- The structures `process` builds from the filter state: the sorted
frequency pairs, `mask_lut`, and the two lookup tables. -/
@[reducible] def pipeOfSt (st : FilterSt) : Pipe :=
  ⟨st, sortedOf st, mlutOf st, (lutsOf st).buckets, (lutsOf st).wlut⟩

/-- The pipeline of `process` up to (not including) the parallel seed
loop; `none` if the filtering phase panicked. -/
def mkPipe (lines : List (List Nat)) : Option Pipe :=
  match filterRun lines with
  | none => none
  | some st => some (pipeOfSt st)

/-- The solutions (lists of five selected masks) reported by the search
seeded with `used = 1 << i`, in emission order. -/
def runSeed (p : Pipe) (i : Nat) : List (List Nat) :=
  searchF p.buckets 5 [] (2 ^ i)

/-- All solutions reported across the 27 seeds `0..27`. -/
def allReports (p : Pipe) : List (List Nat) :=
  (List.range 27).flatMap (runSeed p)

/-- All reported solutions of a run on the given input lines (empty when
the run panics during filtering). -/
def allReportsL (lines : List (List Nat)) : List (List Nat) :=
  match mkPipe lines with
  | none => []
  | some p => allReports p

/-- The remapped masks of the retained words. -/
def retainedMasks (p : Pipe) : List Nat :=
  p.fst.words.map (remapMask p.mlut)

/-- Union of a solution's masks. -/
def unionMasks (sol : List Nat) : Nat :=
  sol.foldr (· ||| ·) 0

/-- Resolution of a reported solution back to words through `word_lut`
(the `word_lut[&selected[i]]` lookups); `none` models the lookup panic. -/
def resolveSol (wlut : List (Nat × List Nat)) (sol : List Nat) :
    Option (List (List Nat)) :=
  sol.mapM fun m => List.lookup m wlut

/-- The `used` masks of all search states visited by one seeded search
(the seeded root included), with `fuel = 5 - depth` as in `searchF`. -/
def statesF (buckets : List (List Nat)) : Nat → Nat → List Nat
  | 0, mask => [mask]
  | fuel + 1, mask =>
    mask :: (buckets.getD (trailingOnes mask) []).foldl
      (fun acc bits =>
        if mask &&& bits = 0 then
          acc ++ statesF buckets fuel (mask ||| bits)
        else acc) []

/-- All search states visited across the 27 seeds. -/
def allStates (p : Pipe) : List Nat :=
  (List.range 27).flatMap fun i => statesF p.buckets 5 (2 ^ i)

/-- All search states of a run on the given input lines. -/
def allStatesL (lines : List (List Nat)) : List Nat :=
  match mkPipe lines with
  | none => []
  | some p => allStates p

/-- Solutions of one seeded search of a run on the given input lines. -/
def runSeedL (lines : List (List Nat)) (i : Nat) : List (List Nat) :=
  match mkPipe lines with
  | none => []
  | some p => runSeed p i

/-- The remapped masks of the retained words of a run on the given lines. -/
def retainedMasksL (lines : List (List Nat)) : List Nat :=
  match mkPipe lines with
  | none => []
  | some p => retainedMasks p

/-- Outcome of the per-line loop for a single line in isolation: `some
(bits, zwrd)` when the line completes (byte length 5 and no repeated
letter bit), `none` when it is skipped, rejected, or would panic.  The
control flow of `procLine` does not depend on the frequency array, so a
dummy one is passed. -/
def lineMask (line : List Nat) : Option (Nat × List Nat) :=
  if byteLen line = 5 then
    match procLine line 0 0 [0, 0, 0, 0, 0] (List.replicate 26 0) with
    | some (_, some (bits, zwrd)) => some (bits, zwrd)
    | _ => none
  else none

/-- The letter codes whose frequency counts a line's character loop
increments: one per character processed strictly before any repeated
letter (after which the line is abandoned) and before any out-of-range
letter (whose count update is the panic site itself). -/
def countedZs : List Nat → Nat → List Nat
  | [], _ => []
  | c :: cs, bits =>
    let z := zcharFrom c
    let b := zmask z
    if bits &&& b ≠ 0 then []
    else if z < 26 then z :: countedZs cs (bits ||| b)
    else []

/-- Increment the counts of all listed letter codes. -/
def bumpAll (freq : List Nat) (zs : List Nat) : List Nat :=
  zs.foldl (fun f z => f.set z (f.getD z 0 + 1)) freq

/-- Keep, of a list of `(mask, word)` pairs, only the first pair carrying
each mask not already in `seen` — the anagram-deduplication policy stated
by the specification ("only the first spelling to produce a given mask is
kept"). -/
def dedupFirstP : List (Nat × List Nat) → List Nat → List (Nat × List Nat)
  | [], _ => []
  | (m, w) :: rest, seen =>
    if m ∈ seen then dedupFirstP rest seen
    else (m, w) :: dedupFirstP rest (m :: seen)

/-- All codepoints of all lines are ASCII. -/
def AllAscii (lines : List (List Nat)) : Prop :=
  ∀ l ∈ lines, ∀ c ∈ l, c < 128

/-- The legal-extension relation of the search: from accumulated mask
`mask`, the listed masks can be selected in order, each taken from the
bucket of the lowest free bit of the mask accumulated so far and disjoint
from it. -/
inductive SelChain (buckets : List (List Nat)) : Nat → List Nat → Prop
  | nil (mask : Nat) : SelChain buckets mask []
  | cons (mask bits : Nat) (ext : List Nat)
      (hb : bits ∈ buckets.getD (trailingOnes mask) [])
      (hd : mask &&& bits = 0)
      (hrest : SelChain buckets (mask ||| bits) ext) :
      SelChain buckets mask (bits :: ext)

/-- A line of five copies of letter `i`: its first two characters are
processed (the second hits the repeated-letter rejection), so it bumps
letter `i`'s frequency count by one and is retained nowhere. -/
def bumpLine (i : Nat) : List Nat :=
  List.replicate 5 (97 + i)

/-- `fillers [k0, k1, ...]` is `k0` bump lines for letter 0, `k1` for
letter 1, and so on: frequency-padding input that retains no words. -/
def fillers (fs : List Nat) : List (List Nat) :=
  fs.enum.flatMap fun p => List.replicate p.2 (bumpLine p.1)

/-- Input for the C1 counterexample: the first line is 5 bytes but only 4
characters (U+0161 is two bytes and truncates to the letter code of
`a`), so it is retained as the word `[a, b, c, d, a]` with a popcount-4
mask; the other four words cover remapped bits 4..23; the filler lines
make every letter's final count `i + 2`, so the (tie-free) ascending
frequency order is the identity and the remap is the identity. -/
def DICT1 : List (List Nat) :=
  [[353, 98, 99, 100], [101, 102, 103, 104, 105], [106, 107, 108, 109, 110],
   [111, 112, 113, 114, 115], [116, 117, 118, 119, 120]] ++
  fillers [1, 2, 3, 4, 5, 6, 7, 8, 9, 10, 11, 12, 13,
           14, 15, 16, 17, 18, 19, 20, 21, 22, 23, 24, 26, 27]

/-- Input for the C2 counterexample: five retained words with pairwise
disjoint remapped masks `{0,1,2,4}`, `{5,6,7,9,25}`, `{10..14}`,
`{15..19}`, `{20..24}` (identity remap, again forced by distinct filler
counts).  The uncovered bits 3 and 8 each block every seeded search
before depth 5, so no seed reports the quintuple. -/
def DICT2 : List (List Nat) :=
  [[353, 98, 99, 101], [102, 103, 104, 106, 122], [107, 108, 109, 110, 111],
   [112, 113, 114, 115, 116], [117, 118, 119, 120, 121]] ++
  fillers [1, 2, 3, 5, 5, 6, 7, 8, 10, 10, 11, 12, 13,
           14, 15, 16, 17, 18, 19, 20, 21, 22, 23, 24, 25, 26]

/-- Input for the C10 counterexample: five clean words covering remapped
bits `{0..23, 25}` (identity remap forced by distinct filler counts).
The solution leaves bit 24 unused, so seed 26 reports it (bit 26 never
interferes) while seed 25 reports nothing (the last word contains
bit 25). -/
def DICT3 : List (List Nat) :=
  [[97, 98, 99, 100, 101], [102, 103, 104, 105, 106], [107, 108, 109, 110, 111],
   [112, 113, 114, 115, 116], [117, 118, 119, 120, 122]] ++
  fillers [1, 2, 3, 4, 5, 6, 7, 8, 9, 10, 11, 12, 13,
           14, 15, 16, 17, 18, 19, 20, 21, 22, 23, 24, 26, 26]

/-- Witness input for the amended C10: the five words `abcde` .. `uvwxy`
plus two `zzzzz` bump lines, which make `z` the strictly most frequent
letter, so `z` gets remapped bit 25 and the unique solution (unused
letter `z`) is reported by seed 25. -/
def DICTW : List (List Nat) :=
  [[97, 98, 99, 100, 101], [102, 103, 104, 105, 106], [107, 108, 109, 110, 111],
   [112, 113, 114, 115, 116], [117, 118, 119, 120, 121],
   List.replicate 5 122, List.replicate 5 122]

/-- Witness input for several confirmed/amended claims: the five words
`abcde` .. `uvwxy` alone.  The unused letter `z` has count 0, is sorted
first, and receives remapped bit 0; the single solution is reported by
seed 0. -/
def DICT5 : List (List Nat) :=
  [[97, 98, 99, 100, 101], [102, 103, 104, 105, 106], [107, 108, 109, 110, 111],
   [112, 113, 114, 115, 116], [117, 118, 119, 120, 121]]

/-- The frequency count of letter `z` after filtering the given lines
(0 when the run panics). -/
def freqOfL (lines : List (List Nat)) (z : Nat) : Nat :=
  match filterRun lines with
  | none => 0
  | some st => st.freq.getD z 0

/-- The number of occurrences of letter `z` across the retained words
after filtering the given lines (0 when the run panics). -/
def retainedOccL (lines : List (List Nat)) (z : Nat) : Nat :=
  match filterRun lines with
  | none => 0
  | some st => (st.words.flatMap id).count z

/-- The retained words after filtering the given lines. -/
def retainedWordsL (lines : List (List Nat)) : List (List Nat) :=
  match filterRun lines with
  | none => []
  | some st => st.words

/-- Write the letter codes `zs` into `zwrd` at consecutive indices
starting from `i` — the effect of the `zwrd[i] = z` assignments. -/
def writeSeq : List Nat → Nat → List Nat → List Nat
  | zwrd, _, [] => zwrd
  | zwrd, i, z :: zs => writeSeq (zwrd.set i z) (i + 1) zs

/-- The natural bitmask of a word: OR of `1 << z` over its letter codes
(the accumulation of `bits |= b` during filtering). -/
def natMask (w : List Nat) : Nat :=
  w.foldl (fun acc z => acc ||| zmask z) 0

/-! ### Bit-level toolkit -/

theorem trailingOnesAux_le (fuel m : Nat) : trailingOnesAux fuel m ≤ fuel := by
  induction fuel generalizing m with
  | zero => simp [trailingOnesAux]
  | succ f ih =>
    simp only [trailingOnesAux]
    split
    · exact Nat.succ_le_succ (ih _)
    · exact Nat.zero_le _

theorem testBit_of_lt_trailingOnesAux {fuel m i : Nat}
    (h : i < trailingOnesAux fuel m) : m.testBit i = true := by
  induction fuel generalizing m i with
  | zero => simp [trailingOnesAux] at h
  | succ f ih =>
    simp only [trailingOnesAux] at h
    by_cases hm : m % 2 = 1
    · rw [if_pos hm] at h
      cases i with
      | zero => rw [Nat.testBit_zero]; simp [hm]
      | succ j =>
        rw [Nat.testBit_succ]
        exact ih (by omega)
    · rw [if_neg hm] at h
      omega

theorem testBit_trailingOnesAux {fuel m : Nat}
    (h : trailingOnesAux fuel m < fuel) :
    m.testBit (trailingOnesAux fuel m) = false := by
  induction fuel generalizing m with
  | zero => omega
  | succ f ih =>
    simp only [trailingOnesAux] at h ⊢
    by_cases hm : m % 2 = 1
    · rw [if_pos hm] at h ⊢
      rw [Nat.testBit_succ]
      exact ih (by omega)
    · rw [if_neg hm]
      rw [Nat.testBit_zero]
      simp [hm]

theorem trailingOnesAux_eq_of {fuel m t : Nat}
    (h1 : ∀ i < t, m.testBit i = true) (h2 : m.testBit t = false)
    (h3 : t < fuel) : trailingOnesAux fuel m = t := by
  induction fuel generalizing m t with
  | zero => omega
  | succ f ih =>
    simp only [trailingOnesAux]
    cases t with
    | zero =>
      have hm : ¬ m % 2 = 1 := by
        intro hm
        rw [Nat.testBit_zero] at h2
        simp [hm] at h2
      rw [if_neg hm]
    | succ s =>
      have h0 : m.testBit 0 = true := h1 0 (Nat.succ_pos s)
      rw [Nat.testBit_zero, decide_eq_true_eq] at h0
      rw [if_pos h0]
      have hrec : trailingOnesAux f (m / 2) = s := by
        apply ih
        · intro i hi
          rw [← Nat.testBit_succ]
          exact h1 (i + 1) (by omega)
        · rw [← Nat.testBit_succ]
          exact h2
        · omega
      omega

theorem testBit_of_lt_trailingOnes {m i : Nat} (h : i < trailingOnes m) :
    m.testBit i = true :=
  testBit_of_lt_trailingOnesAux h

theorem trailingOnes_eq_of {m t : Nat} (h1 : ∀ i < t, m.testBit i = true)
    (h2 : m.testBit t = false) (h3 : t < 32) : trailingOnes m = t :=
  trailingOnesAux_eq_of h1 h2 h3

theorem testBit_trailingOnes {m : Nat} (h : m < 2 ^ 31) :
    m.testBit (trailingOnes m) = false := by
  have h31 : m.testBit 31 = false := Nat.testBit_lt_two_pow h
  have hle : trailingOnes m ≤ 31 := by
    by_contra hgt
    push_neg at hgt
    have h31t := testBit_of_lt_trailingOnes (m := m) (i := 31) (by omega)
    rw [h31] at h31t
    exact Bool.noConfusion h31t
  have hle2 : trailingOnesAux 32 m ≤ 31 := hle
  exact testBit_trailingOnesAux (by omega)

theorem pcAux_eq_card (fuel : Nat) : ∀ m < 2 ^ fuel,
    pcAux fuel m = ((Finset.range fuel).filter fun i => m.testBit i = true).card := by
  induction fuel with
  | zero =>
    intro m hm
    interval_cases m
    simp [pcAux]
  | succ f ih =>
    intro m hm
    have hm2 : m / 2 < 2 ^ f := by
      rw [Nat.pow_succ] at hm
      omega
    simp only [pcAux]
    rw [ih (m / 2) hm2, Finset.card_filter, Finset.card_filter,
      Finset.sum_range_succ']
    have e1 : (∑ i ∈ Finset.range f, if (m / 2).testBit i = true then 1 else 0) =
        ∑ i ∈ Finset.range f, if m.testBit (i + 1) = true then 1 else 0 := by
      apply Finset.sum_congr rfl
      intro x _
      rw [Nat.testBit_succ]
    have e2 : (if m.testBit 0 = true then 1 else 0) = m % 2 := by
      rw [Nat.testBit_zero]
      rcases Nat.mod_two_eq_zero_or_one m with h | h <;> simp [h]
    omega

theorem popcount_eq_card_of_lt {m n : Nat} (hn : n ≤ 32) (h : m < 2 ^ n) :
    popcount m = ((Finset.range n).filter fun i => m.testBit i = true).card := by
  have h32 : m < 2 ^ 32 :=
    lt_of_lt_of_le h (Nat.pow_le_pow_right (by norm_num) hn)
  rw [popcount, pcAux_eq_card 32 m h32]
  congr 1
  apply Finset.ext
  intro i
  simp only [Finset.mem_filter, Finset.mem_range]
  constructor
  · rintro ⟨hi, ht⟩
    refine ⟨?_, ht⟩
    by_contra hni
    push_neg at hni
    have hf : m.testBit i = false :=
      Nat.testBit_lt_two_pow
        (lt_of_lt_of_le h (Nat.pow_le_pow_right (by norm_num) hni))
    rw [hf] at ht
    exact Bool.noConfusion ht
  · rintro ⟨hi, ht⟩
    exact ⟨by omega, ht⟩

theorem land_eq_zero_iff {a b : Nat} :
    a &&& b = 0 ↔ ∀ i, ¬(a.testBit i = true ∧ b.testBit i = true) := by
  constructor
  · rintro h i ⟨ha, hb⟩
    have ht : (a &&& b).testBit i = true := by
      rw [Nat.testBit_land, ha, hb]
      rfl
    rw [h, Nat.zero_testBit] at ht
    exact Bool.noConfusion ht
  · intro h
    apply Nat.eq_of_testBit_eq
    intro i
    rw [Nat.zero_testBit, Nat.testBit_land]
    cases ha : a.testBit i <;> cases hb : b.testBit i <;> simp_all

theorem popcount_lor_disjoint {a b n : Nat} (hn : n ≤ 32) (ha : a < 2 ^ n)
    (hb : b < 2 ^ n) (hd : a &&& b = 0) :
    popcount (a ||| b) = popcount a + popcount b := by
  have hab : a ||| b < 2 ^ n := Nat.bitwise_lt_two_pow ha hb
  rw [popcount_eq_card_of_lt hn hab, popcount_eq_card_of_lt hn ha,
    popcount_eq_card_of_lt hn hb]
  have hdisj : Disjoint ((Finset.range n).filter fun i => a.testBit i = true)
      ((Finset.range n).filter fun i => b.testBit i = true) := by
    rw [Finset.disjoint_left]
    intro i hia hib
    rw [Finset.mem_filter] at hia hib
    exact (land_eq_zero_iff.mp hd) i ⟨hia.2, hib.2⟩
  rw [← Finset.card_union_of_disjoint hdisj]
  congr 1
  apply Finset.ext
  intro i
  simp only [Finset.mem_filter, Finset.mem_union, Finset.mem_range,
    Nat.testBit_lor, Bool.or_eq_true]
  tauto

/-! ### Unions of mask lists -/

theorem unionMasks_cons (x : Nat) (xs : List Nat) :
    unionMasks (x :: xs) = x ||| unionMasks xs :=
  rfl

theorem testBit_unionMasks {l : List Nat} {i : Nat} :
    (unionMasks l).testBit i = true ↔ ∃ m ∈ l, m.testBit i = true := by
  induction l with
  | nil => simp [unionMasks, Nat.zero_testBit]
  | cons x xs ih =>
    rw [unionMasks_cons, Nat.testBit_lor, Bool.or_eq_true, ih]
    constructor
    · rintro (h | ⟨m, hm, ht⟩)
      · exact ⟨x, List.mem_cons_self x xs, h⟩
      · exact ⟨m, List.mem_cons_of_mem x hm, ht⟩
    · rintro ⟨m, hm, ht⟩
      rcases List.mem_cons.mp hm with rfl | hm
      · exact Or.inl ht
      · exact Or.inr ⟨m, hm, ht⟩

theorem unionMasks_lt_two_pow {l : List Nat} {n : Nat}
    (h : ∀ m ∈ l, m < 2 ^ n) : unionMasks l < 2 ^ n := by
  induction l with
  | nil => exact Nat.pos_pow_of_pos n (by norm_num)
  | cons x xs ih =>
    rw [unionMasks_cons]
    exact Nat.bitwise_lt_two_pow (h x (List.mem_cons_self x xs))
      (ih fun m hm => h m (List.mem_cons_of_mem x hm))

theorem unionMasks_perm {l l' : List Nat} (h : l.Perm l') :
    unionMasks l = unionMasks l' := by
  induction h with
  | nil => rfl
  | cons x _ ih => rw [unionMasks_cons, unionMasks_cons, ih]
  | swap x y l =>
    rw [unionMasks_cons, unionMasks_cons, unionMasks_cons, unionMasks_cons,
      ← Nat.lor_assoc, ← Nat.lor_assoc, Nat.lor_comm y x]
  | trans _ _ ih1 ih2 => rw [ih1, ih2]

/-! ### Disjointness helpers -/

theorem land_eq_zero_of_lor_left {a b c : Nat} (h : (a ||| b) &&& c = 0) :
    a &&& c = 0 := by
  rw [land_eq_zero_iff] at h ⊢
  intro i hi
  apply h i
  rw [Nat.testBit_lor, hi.1]
  exact ⟨rfl, hi.2⟩

theorem land_eq_zero_of_lor_right {a b c : Nat} (h : (a ||| b) &&& c = 0) :
    b &&& c = 0 := by
  rw [Nat.lor_comm] at h
  exact land_eq_zero_of_lor_left h

/-! ### Search lemmas -/

theorem mem_searchF_foldl (buckets : List (List Nat)) (fuel : Nat)
    (sel : List Nat) (mask : Nat) (sol : List Nat) (l : List Nat) :
    ∀ init : List (List Nat),
      (sol ∈ l.foldl (fun acc bits =>
          if mask &&& bits = 0 then
            acc ++ searchF buckets fuel (sel ++ [bits]) (mask ||| bits)
          else acc) init ↔
        sol ∈ init ∨ ∃ bits ∈ l, mask &&& bits = 0 ∧
          sol ∈ searchF buckets fuel (sel ++ [bits]) (mask ||| bits)) := by
  induction l with
  | nil => intro init; simp
  | cons a as ih =>
    intro init
    rw [List.foldl_cons]
    by_cases hp : mask &&& a = 0
    · rw [if_pos hp, ih, List.mem_append]
      constructor
      · rintro ((h | h) | ⟨b, hb, hpb, hs⟩)
        · exact Or.inl h
        · exact Or.inr ⟨a, List.mem_cons_self a as, hp, h⟩
        · exact Or.inr ⟨b, List.mem_cons_of_mem a hb, hpb, hs⟩
      · rintro (h | ⟨b, hb, hpb, hs⟩)
        · exact Or.inl (Or.inl h)
        · rcases List.mem_cons.mp hb with rfl | hb
          · exact Or.inl (Or.inr hs)
          · exact Or.inr ⟨b, hb, hpb, hs⟩
    · rw [if_neg hp, ih]
      constructor
      · rintro (h | ⟨b, hb, hpb, hs⟩)
        · exact Or.inl h
        · exact Or.inr ⟨b, List.mem_cons_of_mem a hb, hpb, hs⟩
      · rintro (h | ⟨b, hb, hpb, hs⟩)
        · exact Or.inl h
        · rcases List.mem_cons.mp hb with rfl | hb
          · exact absurd hpb hp
          · exact Or.inr ⟨b, hb, hpb, hs⟩

theorem mem_searchF_succ {buckets : List (List Nat)} {fuel : Nat}
    {sel : List Nat} {mask : Nat} {sol : List Nat} :
    sol ∈ searchF buckets (fuel + 1) sel mask ↔
      ∃ bits ∈ buckets.getD (trailingOnes mask) [], mask &&& bits = 0 ∧
        sol ∈ searchF buckets fuel (sel ++ [bits]) (mask ||| bits) := by
  show sol ∈ List.foldl _ [] _ ↔ _
  rw [mem_searchF_foldl]
  simp

theorem searchF_sound_chain {buckets : List (List Nat)} :
    ∀ {fuel : Nat} {sel : List Nat} {mask : Nat} {sol : List Nat},
      sol ∈ searchF buckets fuel sel mask →
      ∃ ext, sol = sel ++ ext ∧ ext.length = fuel ∧ SelChain buckets mask ext := by
  intro fuel
  induction fuel with
  | zero =>
    intro sel mask sol h
    simp only [searchF, List.mem_singleton] at h
    exact ⟨[], by simp [h], rfl, SelChain.nil mask⟩
  | succ f ih =>
    intro sel mask sol h
    rw [mem_searchF_succ] at h
    obtain ⟨bits, hb, hd, hs⟩ := h
    obtain ⟨ext, rfl, hlen, hchain⟩ := ih hs
    exact ⟨bits :: ext, by simp, by simp [hlen],
      SelChain.cons mask bits ext hb hd hchain⟩

theorem searchF_complete_chain {buckets : List (List Nat)} :
    ∀ {fuel : Nat} {mask : Nat} {ext : List Nat}, SelChain buckets mask ext →
      ext.length = fuel → ∀ sel, (sel ++ ext) ∈ searchF buckets fuel sel mask := by
  intro fuel
  induction fuel with
  | zero =>
    intro mask ext hchain hlen sel
    have hnil : ext = [] := List.length_eq_zero.mp hlen
    subst hnil
    simp [searchF]
  | succ f ih =>
    intro mask ext hchain hlen sel
    cases hchain with
    | nil => simp at hlen
    | cons mask bits ext2 hb hd hrest =>
      rw [mem_searchF_succ]
      refine ⟨bits, hb, hd, ?_⟩
      have hmem := ih hrest (by simpa using hlen) (sel ++ [bits])
      simpa using hmem

theorem selChain_disjoint_mask {buckets : List (List Nat)} {mask : Nat}
    {ext : List Nat} (h : SelChain buckets mask ext) :
    ∀ b ∈ ext, mask &&& b = 0 := by
  induction h with
  | nil => intro b hb; simp at hb
  | cons mask bits ext hb hd _ ih =>
    intro b hbm
    rcases List.mem_cons.mp hbm with rfl | hbm
    · exact hd
    · exact land_eq_zero_of_lor_left (ih b hbm)

theorem selChain_pairwise {buckets : List (List Nat)} {mask : Nat}
    {ext : List Nat} (h : SelChain buckets mask ext) :
    ext.Pairwise (fun a b => a &&& b = 0) := by
  induction h with
  | nil => exact List.Pairwise.nil
  | cons mask bits ext _ _ hrest ih =>
    refine List.Pairwise.cons ?_ ih
    intro b hbm
    exact land_eq_zero_of_lor_right (selChain_disjoint_mask hrest b hbm)

theorem selChain_mem_bucket {buckets : List (List Nat)} {mask : Nat}
    {ext : List Nat} (h : SelChain buckets mask ext) :
    ∀ b ∈ ext, ∃ j, b ∈ buckets.getD j [] := by
  induction h with
  | nil => intro b hb; simp at hb
  | cons mask bits ext hb _ _ ih =>
    intro b hbm
    rcases List.mem_cons.mp hbm with rfl | hbm
    · exact ⟨trailingOnes mask, hb⟩
    · exact ih b hbm

/-! ### Claim C7: malformed-line handling -/

/-- C7 counterexample: the claim says a 5-byte line containing a
non-letter character is recovered locally by skipping it with no
surfaced error.  On `"ab1cd"` the character `'1'` wraps to letter code
208 and the update of `freq[208]` panics: the whole run aborts (`none`),
while an empty input runs fine — the line is not skipped locally. -/
theorem c7_malformed_counterexample :
    filterRun [[97, 98, 49, 99, 100]] = none ∧ filterRun [] ≠ none := by
  constructor
  · decide
  · decide

/-- C7 (amended): a line whose byte length differs from 5 is skipped
silently — the indexing loop continues on the remaining lines in an
unchanged state.  (A 5-byte line containing a non-letter character is
not skipped: it aborts the run, see the counterexample.) -/
theorem c7_skip_wrong_length (st : FilterSt) (l : List Nat)
    (ls : List (List Nat)) (h : byteLen l ≠ 5) :
    indexWords st (l :: ls) = indexWords st ls := by
  simp only [indexWords, stepLine, if_pos h]

/-- Witness for `c7_skip_wrong_length` at a concrete wrong-length line. -/
theorem c7_skip_wrong_length_witness :
    indexWords initSt [[97], [97, 98, 99, 100, 101]] =
      indexWords initSt [[97, 98, 99, 100, 101]] :=
  c7_skip_wrong_length initSt [97] [[97, 98, 99, 100, 101]] (by decide)

/-! ### Claim C8: the search-frontier invariant -/

/-- C8 counterexample: the claim states that at every reachable search
state (seeded initial states included) `used` has no bit at or above the
target (the lowest unset bit) set.  The initial state of seed 1 on any
input (here: the empty dictionary) is `used = 2`, whose target is bit 0,
yet bit 1 is set. -/
theorem c8_frontier_counterexample :
    2 ∈ allStatesL [] ∧ Nat.testBit 2 1 = true ∧ ¬ 1 < trailingOnes 2 := by
  refine ⟨by decide, by decide, by decide⟩

/-- C8 (amended): at every search state reachable during the backtracking
search (seeded initial states included) every bit of `used` below the
target — the position of the lowest unset bit, `used.trailing_ones()` —
is set, so the bits below the frontier are a contiguous filled prefix;
bits at or above the target may also be set (the seed bit and the
higher letters of selected words). -/
theorem c8_frontier_below_target (lines : List (List Nat)) (st j : Nat)
    (hst : st ∈ allStatesL lines) (hj : j < trailingOnes st) :
    st.testBit j = true :=
  testBit_of_lt_trailingOnes hj

/-- Witness for `c8_frontier_below_target`: seed 0's initial state on the
empty dictionary is `used = 1` with target 1, and bit 0 is set. -/
theorem c8_frontier_below_target_witness :
    Nat.testBit 1 0 = true :=
  c8_frontier_below_target [] 1 0 (by decide) (by decide)

/-! ### Claim C6: frequency-table counterexample -/

/-- C6 counterexample: the claim says rejected lines and discarded
anagram duplicates contribute nothing to the frequency table.  On the
input `["abcde", "abcde"]` the second line is an anagram duplicate and is
not retained, yet every one of its letters is counted: the count of `a`
is 2 while `a` occurs once across the retained words. -/
theorem c6_freq_counterexample :
    freqOfL [[97, 98, 99, 100, 101], [97, 98, 99, 100, 101]] 0 = 2 ∧
      retainedOccL [[97, 98, 99, 100, 101], [97, 98, 99, 100, 101]] 0 = 1 := by
  constructor
  · decide
  · decide

/-! ### Claims C1, C2, C10: concrete counterexamples -/

set_option maxRecDepth 1000000 in
/-- C1 counterexample: the claim asserts that on every dictionary input
every reported 5-word solution has mask-union popcount exactly 25.  On
`DICT1` the solution `[15, 496, 15872, 507904, 16252928]` is reported
(three times, by seeds 24, 25, 26) and its union `{0..23}` has popcount
24: the first selected word is the retained 4-character line and covers
only four bits. -/
theorem c1_reported_union_counterexample :
    [15, 496, 15872, 507904, 16252928] ∈ allReportsL DICT1 ∧
      popcount (unionMasks [15, 496, 15872, 507904, 16252928]) ≠ 25 := by
  constructor
  · decide
  · decide

set_option maxRecDepth 1000000 in
/-- C2 counterexample: the claim asserts that every quintuple of retained
words with pairwise disjoint remapped masks is reported by at least one
of the 27 seeded searches.  On `DICT2` the masks
`[23, 33555168, 31744, 1015808, 32505856]` all belong to retained words
and are pairwise disjoint, yet no seed reports anything at all: the two
uncovered bits 3 and 8 both block the frontier before depth 5. -/
theorem c2_completeness_counterexample :
    (∀ m ∈ ([23, 33555168, 31744, 1015808, 32505856] : List Nat),
        m ∈ retainedMasksL DICT2) ∧
      List.Pairwise (fun a b => a &&& b = 0)
        ([23, 33555168, 31744, 1015808, 32505856] : List Nat) ∧
      allReportsL DICT2 = [] := by
  refine ⟨by decide, by decide, by decide⟩

set_option maxRecDepth 1000000 in
/-- C10 counterexample: the claim asserts that seed 26 reports exactly
the same solutions as seed 25.  On `DICT3` seed 26 reports the solution
`[31, 992, 31744, 1015808, 49283072]` (whose unused remapped bit is 24,
not 25) while seed 25 reports nothing, because the fifth word contains
bit 25. -/
theorem c10_seed26_counterexample :
    [31, 992, 31744, 1015808, 49283072] ∈ runSeedL DICT3 26 ∧
      runSeedL DICT3 25 = [] := by
  constructor
  · decide
  · decide

/-! ### Per-line filter lemmas -/

theorem procLine_freq_irrel :
    ∀ (cs : List Nat) (i bits : Nat) (zwrd f1 f2 : List Nat),
      (procLine cs i bits zwrd f1).map Prod.snd =
        (procLine cs i bits zwrd f2).map Prod.snd := by
  intro cs
  induction cs with
  | nil => intro i bits zwrd f1 f2; rfl
  | cons c cs ih =>
    intro i bits zwrd f1 f2
    simp only [procLine]
    by_cases hdup : bits &&& zmask (zcharFrom c) ≠ 0
    · rw [if_pos hdup, if_pos hdup]
      rfl
    · rw [if_neg hdup, if_neg hdup]
      by_cases hz : zcharFrom c < 26
      · rw [if_pos hz, if_pos hz]
        exact ih _ _ _ _ _
      · rw [if_neg hz, if_neg hz]

theorem procLine_freq_bump :
    ∀ (cs : List Nat) (i bits : Nat) (zwrd freq f1 : List Nat)
      (r : Option (Nat × List Nat)),
      procLine cs i bits zwrd freq = some (f1, r) →
      f1 = bumpAll freq (countedZs cs bits) := by
  intro cs
  induction cs with
  | nil =>
    intro i bits zwrd freq f1 r h
    simp only [procLine, Option.some.injEq, Prod.mk.injEq] at h
    simp [countedZs, bumpAll, h.1.symm]
  | cons c cs ih =>
    intro i bits zwrd freq f1 r h
    simp only [procLine] at h
    simp only [countedZs]
    by_cases hdup : bits &&& zmask (zcharFrom c) ≠ 0
    · rw [if_pos hdup] at h
      rw [if_pos hdup]
      simp only [Option.some.injEq, Prod.mk.injEq] at h
      simp [bumpAll, h.1.symm]
    · rw [if_neg hdup] at h
      rw [if_neg hdup]
      by_cases hz : zcharFrom c < 26
      · rw [if_pos hz] at h
        rw [if_pos hz]
        exact ih _ _ _ _ _ _ h
      · rw [if_neg hz] at h
        exact absurd h (by simp)

theorem procLine_freq_length :
    ∀ (cs : List Nat) (i bits : Nat) (zwrd freq f1 : List Nat)
      (r : Option (Nat × List Nat)),
      procLine cs i bits zwrd freq = some (f1, r) →
      f1.length = freq.length := by
  intro cs
  induction cs with
  | nil =>
    intro i bits zwrd freq f1 r h
    simp only [procLine, Option.some.injEq, Prod.mk.injEq] at h
    rw [← h.1]
  | cons c cs ih =>
    intro i bits zwrd freq f1 r h
    simp only [procLine] at h
    by_cases hdup : bits &&& zmask (zcharFrom c) ≠ 0
    · rw [if_pos hdup] at h
      simp only [Option.some.injEq, Prod.mk.injEq] at h
      rw [← h.1]
    · rw [if_neg hdup] at h
      by_cases hz : zcharFrom c < 26
      · rw [if_pos hz] at h
        rw [ih _ _ _ _ _ _ h, List.length_set]
      · rw [if_neg hz] at h
        exact absurd h (by simp)

theorem procLine_zwrd :
    ∀ (cs : List Nat) (i bits : Nat) (zwrd freq f1 : List Nat)
      (bits1 : Nat) (zwrd1 : List Nat),
      procLine cs i bits zwrd freq = some (f1, some (bits1, zwrd1)) →
      zwrd1 = writeSeq zwrd i (cs.map zcharFrom) := by
  intro cs
  induction cs with
  | nil =>
    intro i bits zwrd freq f1 bits1 zwrd1 h
    simp only [procLine, Option.some.injEq, Prod.mk.injEq] at h
    simp [writeSeq, h.2.2.symm]
  | cons c cs ih =>
    intro i bits zwrd freq f1 bits1 zwrd1 h
    simp only [procLine] at h
    simp only [List.map_cons, writeSeq]
    by_cases hdup : bits &&& zmask (zcharFrom c) ≠ 0
    · rw [if_pos hdup] at h
      simp at h
    · rw [if_neg hdup] at h
      by_cases hz : zcharFrom c < 26
      · rw [if_pos hz] at h
        exact ih _ _ _ _ _ _ _ h
      · rw [if_neg hz] at h
        exact absurd h (by simp)

theorem procLine_complete_props :
    ∀ (cs : List Nat) (i bits : Nat) (zwrd freq f1 : List Nat)
      (bits1 : Nat) (zwrd1 : List Nat),
      procLine cs i bits zwrd freq = some (f1, some (bits1, zwrd1)) →
      (∀ c ∈ cs, zcharFrom c < 26 ∧ bits.testBit (zcharFrom c) = false) ∧
      (cs.map zcharFrom).Nodup ∧
      (∀ j, bits1.testBit j = true ↔
        bits.testBit j = true ∨ ∃ c ∈ cs, zcharFrom c = j) := by
  intro cs
  induction cs with
  | nil =>
    intro i bits zwrd freq f1 bits1 zwrd1 h
    simp only [procLine, Option.some.injEq, Prod.mk.injEq] at h
    refine ⟨by simp, List.nodup_nil, ?_⟩
    intro j
    rw [← h.2.1]
    simp
  | cons c cs ih =>
    intro i bits zwrd freq f1 bits1 zwrd1 h
    simp only [procLine] at h
    by_cases hdup : bits &&& zmask (zcharFrom c) ≠ 0
    · rw [if_pos hdup] at h
      simp at h
    · rw [if_neg hdup] at h
      by_cases hz : zcharFrom c < 26
      · rw [if_pos hz] at h
        have hmod : zcharFrom c % 32 = zcharFrom c := Nat.mod_eq_of_lt (by omega)
        have hfresh : bits.testBit (zcharFrom c) = false := by
          push_neg at hdup
          by_contra hbt
          rw [Bool.not_eq_false] at hbt
          have hb : (2 ^ (zcharFrom c % 32)).testBit (zcharFrom c) = true := by
            rw [hmod]
            exact Nat.testBit_two_pow_self
          have := land_eq_zero_iff.mp hdup (zcharFrom c)
          exact this ⟨hbt, hb⟩
        obtain ⟨ih1, ih2, ih3⟩ := ih _ _ _ _ _ _ _ h
        have hbits' : ∀ j, (bits ||| zmask (zcharFrom c)).testBit j = true ↔
            bits.testBit j = true ∨ j = zcharFrom c := by
          intro j
          rw [Nat.testBit_lor, Bool.or_eq_true, zmask, hmod, Nat.testBit_two_pow,
            decide_eq_true_eq]
          constructor
          · rintro (hb | he)
            exacts [Or.inl hb, Or.inr he.symm]
          · rintro (hb | he)
            exacts [Or.inl hb, Or.inr he.symm]
        refine ⟨?_, ?_, ?_⟩
        · intro c' hc'
          rcases List.mem_cons.mp hc' with rfl | hc'
          · exact ⟨hz, hfresh⟩
          · refine ⟨(ih1 c' hc').1, ?_⟩
            have := (ih1 c' hc').2
            rw [Bool.eq_false_iff] at this ⊢
            intro hbt
            exact this ((hbits' _).mpr (Or.inl hbt))
        · rw [List.map_cons]
          refine List.Nodup.cons ?_ ih2
          intro hmem
          rw [List.mem_map] at hmem
          obtain ⟨c', hc', hceq⟩ := hmem
          have hfree := (ih1 c' hc').2
          have hset : (bits ||| zmask (zcharFrom c)).testBit (zcharFrom c') = true := by
            rw [hceq]
            exact (hbits' _).mpr (Or.inr rfl)
          rw [hfree] at hset
          exact Bool.noConfusion hset
        · intro j
          rw [ih3 j, hbits' j]
          constructor
          · rintro ((hb | rfl) | ⟨c', hc', rfl⟩)
            · exact Or.inl hb
            · exact Or.inr ⟨c, List.mem_cons_self c cs, rfl⟩
            · exact Or.inr ⟨c', List.mem_cons_of_mem c hc', rfl⟩
          · rintro (hb | ⟨c', hc', rfl⟩)
            · exact Or.inl (Or.inl hb)
            · rcases List.mem_cons.mp hc' with rfl | hc'
              · exact Or.inl (Or.inr rfl)
              · exact Or.inr ⟨c', hc', rfl⟩
      · rw [if_neg hz] at h
        exact absurd h (by simp)

theorem writeSeq_five (zs : List Nat) (h : zs.length = 5) :
    writeSeq [0, 0, 0, 0, 0] 0 zs = zs := by
  cases zs with
  | nil => simp at h
  | cons a t1 =>
    cases t1 with
    | nil => simp at h
    | cons b t2 =>
      cases t2 with
      | nil => simp at h
      | cons c t3 =>
        cases t3 with
        | nil => simp at h
        | cons d t4 =>
          cases t4 with
          | nil => simp at h
          | cons e t5 =>
            cases t5 with
            | nil => rfl
            | cons f t6 =>
              simp only [List.length_cons, List.length_nil] at h
              omega

theorem byteLen_ascii {l : List Nat} (h : ∀ c ∈ l, c < 128) :
    byteLen l = l.length := by
  induction l with
  | nil => rfl
  | cons c cs ih =>
    have hc : c < 128 := h c (List.mem_cons_self c cs)
    have ihv := ih fun c' hc' => h c' (List.mem_cons_of_mem c hc')
    simp only [byteLen, List.map_cons, List.sum_cons, List.length_cons] at *
    rw [utf8Len, if_pos hc]
    omega

theorem testBit_foldl_lor {g : Nat → Nat} :
    ∀ (l : List Nat) (acc : Nat) (j : Nat),
      ((l.foldl (fun a z => a ||| g z) acc).testBit j = true ↔
        acc.testBit j = true ∨ ∃ z ∈ l, (g z).testBit j = true) := by
  intro l
  induction l with
  | nil => intro acc j; simp
  | cons x xs ih =>
    intro acc j
    rw [List.foldl_cons, ih, Nat.testBit_lor, Bool.or_eq_true]
    constructor
    · rintro ((h | h) | ⟨z, hz, ht⟩)
      · exact Or.inl h
      · exact Or.inr ⟨x, List.mem_cons_self x xs, h⟩
      · exact Or.inr ⟨z, List.mem_cons_of_mem x hz, ht⟩
    · rintro (h | ⟨z, hz, ht⟩)
      · exact Or.inl (Or.inl h)
      · rcases List.mem_cons.mp hz with rfl | hz
        · exact Or.inl (Or.inr ht)
        · exact Or.inr ⟨z, hz, ht⟩

theorem foldl_lor_lt {g : Nat → Nat} {n : Nat} :
    ∀ (l : List Nat) (acc : Nat), acc < 2 ^ n → (∀ z ∈ l, g z < 2 ^ n) →
      l.foldl (fun a z => a ||| g z) acc < 2 ^ n := by
  intro l
  induction l with
  | nil => intro acc ha _; exact ha
  | cons x xs ih =>
    intro acc ha hg
    rw [List.foldl_cons]
    exact ih _ (Nat.bitwise_lt_two_pow ha (hg x (List.mem_cons_self x xs)))
      fun z hz => hg z (List.mem_cons_of_mem x hz)

theorem testBit_natMask {w : List Nat} {j : Nat} (hw : ∀ z ∈ w, z < 26) :
    (natMask w).testBit j = true ↔ j ∈ w := by
  rw [natMask, testBit_foldl_lor]
  constructor
  · rintro (h0 | ⟨z, hz, ht⟩)
    · rw [Nat.zero_testBit] at h0
      exact absurd h0 (by simp)
    · have hzlt := hw z hz
      rw [zmask, Nat.mod_eq_of_lt (by omega), Nat.testBit_two_pow,
        decide_eq_true_eq] at ht
      exact ht ▸ hz
  · intro hj
    refine Or.inr ⟨j, hj, ?_⟩
    have hjlt := hw j hj
    rw [zmask, Nat.mod_eq_of_lt (by omega)]
    exact Nat.testBit_two_pow_self

theorem natMask_lt {w : List Nat} (hw : ∀ z ∈ w, z < 26) :
    natMask w < 2 ^ 26 := by
  rw [natMask]
  apply foldl_lor_lt _ _ (Nat.pos_pow_of_pos 26 (by norm_num))
  intro z hz
  rw [zmask, Nat.mod_eq_of_lt (by have := hw z hz; omega)]
  exact Nat.pow_lt_pow_right (by norm_num) (hw z hz)

theorem popcount_natMask {w : List Nat} (hw : ∀ z ∈ w, z < 26)
    (hnd : w.Nodup) : popcount (natMask w) = w.length := by
  rw [popcount_eq_card_of_lt (by norm_num) (natMask_lt hw),
    ← List.toFinset_card_of_nodup hnd]
  congr 1
  apply Finset.ext
  intro j
  rw [Finset.mem_filter, Finset.mem_range, List.mem_toFinset]
  constructor
  · rintro ⟨_, ht⟩
    exact (testBit_natMask hw).mp ht
  · intro hj
    exact ⟨hw j hj, (testBit_natMask hw).mpr hj⟩

theorem lineMask_eq_of_procLine {line freq f1 : List Nat}
    {r : Option (Nat × List Nat)} (hb : byteLen line = 5)
    (h : procLine line 0 0 [0, 0, 0, 0, 0] freq = some (f1, r)) :
    lineMask line = r := by
  rw [lineMask, if_pos hb]
  have hirr := procLine_freq_irrel line 0 0 [0, 0, 0, 0, 0]
    (List.replicate 26 0) freq
  rw [h] at hirr
  cases hpl : procLine line 0 0 [0, 0, 0, 0, 0] (List.replicate 26 0) with
  | none =>
    rw [hpl] at hirr
    simp at hirr
  | some pr =>
    rw [hpl] at hirr
    obtain ⟨fq, rr⟩ := pr
    simp only [Option.map_some'] at hirr
    cases rr with
    | none =>
      simp only [Option.some.injEq] at hirr
      rw [← hirr]
    | some p =>
      simp only [Option.some.injEq] at hirr
      rw [← hirr]

/-! ### Frequency bookkeeping -/

theorem bumpAll_length : ∀ (zs f : List Nat), (bumpAll f zs).length = f.length := by
  intro zs
  induction zs with
  | nil => intro f; rfl
  | cons z zs ih =>
    intro f
    show (bumpAll (f.set z (f.getD z 0 + 1)) zs).length = f.length
    rw [ih, List.length_set]

theorem bumpAll_getD (z : Nat) :
    ∀ (zs f : List Nat), f.length = 26 → (∀ y ∈ zs, y < 26) → z < 26 →
      (bumpAll f zs).getD z 0 = f.getD z 0 + zs.count z := by
  intro zs
  induction zs with
  | nil => intro f _ _ _; simp [bumpAll]
  | cons y ys ih =>
    intro f hf hys hz
    have hy : y < 26 := hys y (List.mem_cons_self y ys)
    show (bumpAll (f.set y (f.getD y 0 + 1)) ys).getD z 0 = _
    rw [ih _ (by rw [List.length_set]; exact hf)
      (fun a ha => hys a (List.mem_cons_of_mem y ha)) hz]
    by_cases hzy : z = y
    · subst hzy
      have hset : (f.set z (f.getD z 0 + 1)).getD z 0 = f.getD z 0 + 1 := by
        rw [List.getD_eq_getElem?_getD, List.getElem?_set_self (by omega),
          Option.getD_some]
      rw [hset, List.count_cons_self]
      omega
    · have hset : (f.set y (f.getD y 0 + 1)).getD z 0 = f.getD z 0 := by
        rw [List.getD_eq_getElem?_getD, List.getElem?_set_ne (fun h => hzy h.symm),
          ← List.getD_eq_getElem?_getD]
      rw [hset, List.count_cons_of_ne (by simpa using hzy)]

theorem countedZs_lt : ∀ (cs : List Nat) (bits : Nat),
    ∀ y ∈ countedZs cs bits, y < 26 := by
  intro cs
  induction cs with
  | nil => intro bits y hy; simp [countedZs] at hy
  | cons c cs ih =>
    intro bits y hy
    simp only [countedZs] at hy
    by_cases hdup : bits &&& zmask (zcharFrom c) ≠ 0
    · rw [if_pos hdup] at hy
      simp at hy
    · rw [if_neg hdup] at hy
      by_cases hz : zcharFrom c < 26
      · rw [if_pos hz] at hy
        rcases List.mem_cons.mp hy with rfl | hy
        · exact hz
        · exact ih _ y hy
      · rw [if_neg hz] at hy
        simp at hy

/-! ### Per-step characterizations of the indexing loop -/

theorem lineMask_none_of_len {l : List Nat} (h : byteLen l ≠ 5) :
    lineMask l = none := by
  rw [lineMask, if_neg h]

theorem stepLine_freq {st : FilterSt} {l : List Nat} {st' : FilterSt}
    (h : stepLine st l = some st') :
    st'.freq = if byteLen l = 5 then bumpAll st.freq (countedZs l 0)
      else st.freq := by
  rw [stepLine] at h
  split at h
  · next hb =>
    rw [if_neg hb]
    cases h
    rfl
  · next hb =>
    have hb5 : byteLen l = 5 := by omega
    rw [if_pos hb5]
    split at h
    · exact absurd h (by simp)
    · next freq1 heq =>
      cases h
      exact procLine_freq_bump _ _ _ _ _ _ _ heq
    · next freq1 bits zwrd heq =>
      split at h <;> cases h <;> exact procLine_freq_bump _ _ _ _ _ _ _ heq

theorem stepLine_cases {st : FilterSt} {l : List Nat} {st' : FilterSt}
    (h : stepLine st l = some st') :
    (byteLen l ≠ 5 ∧ st' = st) ∨
    (byteLen l = 5 ∧ lineMask l = none ∧ st'.seen = st.seen ∧
      st'.words = st.words) ∨
    (∃ bits zwrd, byteLen l = 5 ∧ lineMask l = some (bits, zwrd) ∧
      ((bits ∈ st.seen ∧ st'.seen = st.seen ∧ st'.words = st.words) ∨
       (bits ∉ st.seen ∧ st'.seen = bits :: st.seen ∧
         st'.words = st.words ++ [zwrd]))) := by
  rw [stepLine] at h
  split at h
  · next hb =>
    cases h
    exact Or.inl ⟨hb, rfl⟩
  · next hb =>
    have hb5 : byteLen l = 5 := by omega
    split at h
    · exact absurd h (by simp)
    · next freq1 heq =>
      cases h
      exact Or.inr (Or.inl ⟨hb5, lineMask_eq_of_procLine hb5 heq, rfl, rfl⟩)
    · next freq1 bits zwrd heq =>
      refine Or.inr (Or.inr ⟨bits, zwrd, hb5,
        lineMask_eq_of_procLine hb5 heq, ?_⟩)
      split at h
      · next hmem =>
        cases h
        exact Or.inl ⟨hmem, rfl, rfl⟩
      · next hmem =>
        cases h
        exact Or.inr ⟨hmem, rfl, rfl⟩

/-! ### Whole-loop inductions -/

theorem indexWords_freq :
    ∀ (ls : List (List Nat)) (st st' : FilterSt),
      indexWords st ls = some st' → st.freq.length = 26 → ∀ z < 26,
      st'.freq.getD z 0 = st.freq.getD z 0 +
        ((ls.filter fun l => byteLen l = 5).flatMap fun l =>
          countedZs l 0).count z := by
  intro ls
  induction ls with
  | nil =>
    intro st st' h _ z _
    cases h
    simp
  | cons l ls ih =>
    intro st st' h hlen z hz
    rw [indexWords] at h
    split at h
    · exact absurd h (by simp)
    · next st1 hst =>
      have hfreq1 := stepLine_freq hst
      have hlen1 : st1.freq.length = 26 := by
        rw [hfreq1]
        split
        · rw [bumpAll_length, hlen]
        · exact hlen
      have hih := ih st1 st' h hlen1 z hz
      by_cases hb : byteLen l = 5
      · rw [if_pos hb] at hfreq1
        have hcnt := bumpAll_getD z (countedZs l 0) st.freq hlen
          (countedZs_lt l 0) hz
        rw [hih, hfreq1, hcnt]
        have hfil : (l :: ls).filter (fun l => byteLen l = 5) =
            l :: ls.filter (fun l => byteLen l = 5) := by
          simp [List.filter_cons, hb]
        rw [hfil, List.flatMap_cons, List.count_append]
        omega
      · rw [if_neg hb] at hfreq1
        have hfil : (l :: ls).filter (fun l => byteLen l = 5) =
            ls.filter (fun l => byteLen l = 5) := by
          simp [List.filter_cons, hb]
        rw [hih, hfreq1, hfil]

theorem indexWords_dedup :
    ∀ (ls : List (List Nat)) (st st' : FilterSt),
      indexWords st ls = some st' →
      st'.words = st.words ++
        (dedupFirstP (ls.filterMap lineMask) st.seen).map Prod.snd ∧
      st'.seen =
        ((dedupFirstP (ls.filterMap lineMask) st.seen).map Prod.fst).reverse ++
          st.seen := by
  intro ls
  induction ls with
  | nil =>
    intro st st' h
    cases h
    simp [dedupFirstP]
  | cons l ls ih =>
    intro st st' h
    rw [indexWords] at h
    split at h
    · exact absurd h (by simp)
    · next st1 hst =>
      have hih := ih st1 st' h
      rcases stepLine_cases hst with ⟨hb, rfl⟩ |
        ⟨hb, hlm, hseen, hwords⟩ | ⟨bits, zwrd, hb, hlm, hcase⟩
      · rw [List.filterMap_cons, lineMask_none_of_len hb]
        exact hih
      · rw [List.filterMap_cons, hlm]
        rw [hseen, hwords] at hih
        exact hih
      · rw [List.filterMap_cons, hlm]
        rcases hcase with ⟨hmem, hseen, hwords⟩ | ⟨hmem, hseen, hwords⟩
        · rw [dedupFirstP, if_pos hmem]
          rw [hseen, hwords] at hih
          exact hih
        · rw [dedupFirstP, if_neg hmem]
          rw [hseen, hwords] at hih
          obtain ⟨hw, hs⟩ := hih
          constructor
          · rw [hw, List.map_cons, List.append_assoc]
            rfl
          · rw [hs, List.map_cons, List.reverse_cons, List.append_assoc]
            rfl

theorem dedupFirstP_fst_nodup :
    ∀ (ps : List (Nat × List Nat)) (seen : List Nat),
      ((dedupFirstP ps seen).map Prod.fst).Nodup ∧
      ∀ m ∈ (dedupFirstP ps seen).map Prod.fst, m ∉ seen := by
  intro ps
  induction ps with
  | nil => intro seen; simp [dedupFirstP]
  | cons p rest ih =>
    intro seen
    obtain ⟨m, w⟩ := p
    rw [dedupFirstP]
    by_cases hmem : m ∈ seen
    · rw [if_pos hmem]
      exact ih seen
    · rw [if_neg hmem]
      obtain ⟨ihn, ihs⟩ := ih (m :: seen)
      rw [List.map_cons]
      refine ⟨List.Nodup.cons ?_ ihn, ?_⟩
      · intro hm
        exact ihs m hm (List.mem_cons_self m seen)
      · intro m' hm'
        rcases List.mem_cons.mp hm' with rfl | hm'
        · exact hmem
        · intro hm'seen
          exact ihs m' hm' (List.mem_cons_of_mem m hm'seen)

theorem indexWords_words_ascii :
    ∀ (ls : List (List Nat)) (st st' : FilterSt),
      indexWords st ls = some st' → (∀ l ∈ ls, ∀ c ∈ l, c < 128) →
      ∀ w ∈ st'.words, w ∈ st.words ∨
        ∃ l ∈ ls, l.length = 5 ∧ w = l.map zcharFrom ∧ w.Nodup ∧
          (∀ z ∈ w, z < 26) ∧ lineMask l = some (natMask w, w) := by
  intro ls
  induction ls with
  | nil =>
    intro st st' h _ w hw
    cases h
    exact Or.inl hw
  | cons l ls ih =>
    intro st st' h hA w hw
    rw [indexWords] at h
    split at h
    · exact absurd h (by simp)
    · next st1 hst =>
      have hAl : ∀ c ∈ l, c < 128 := hA l (List.mem_cons_self l ls)
      have hArest : ∀ l' ∈ ls, ∀ c ∈ l', c < 128 :=
        fun l' hl' => hA l' (List.mem_cons_of_mem l hl')
      have hih := ih st1 st' h hArest w hw
      rcases hih with hw1 | ⟨l', hl', hrest⟩
      · -- w was already in st1.words: analyse the step
        rw [stepLine] at hst
        split at hst
        · next hb =>
          cases hst
          exact Or.inl hw1
        · next hb =>
          have hb5 : byteLen l = 5 := by omega
          have hlen5 : l.length = 5 := by rw [← byteLen_ascii hAl, hb5]
          split at hst
          · exact absurd hst (by simp)
          · next freq1 heq =>
            cases hst
            exact Or.inl hw1
          · next freq1 bits zwrd heq =>
            split at hst
            · next hmem =>
              cases hst
              exact Or.inl hw1
            · next hmem =>
              cases hst
              simp only at hw1
              rcases List.mem_append.mp hw1 with hw2 | hw2
              · exact Or.inl hw2
              · -- w = zwrd, the newly retained word
                have hwz : w = zwrd := List.mem_singleton.mp hw2
                subst hwz
                have hzw := procLine_zwrd l 0 0 [0, 0, 0, 0, 0] st.freq
                  freq1 bits w heq
                have hmap5 : (l.map zcharFrom).length = 5 := by
                  rw [List.length_map, hlen5]
                rw [writeSeq_five (l.map zcharFrom) hmap5] at hzw
                obtain ⟨hp1, hp2, hp3⟩ := procLine_complete_props l 0 0
                  [0, 0, 0, 0, 0] st.freq freq1 bits w heq
                have hwlt : ∀ z ∈ w, z < 26 := by
                  intro z hz
                  rw [hzw] at hz
                  obtain ⟨c, hc, rfl⟩ := List.mem_map.mp hz
                  exact (hp1 c hc).1
                have hnodup : w.Nodup := hzw ▸ hp2
                have hbits : bits = natMask w := by
                  apply Nat.eq_of_testBit_eq
                  intro j
                  have hiff : bits.testBit j = true ↔ (natMask w).testBit j = true := by
                    rw [hp3 j, testBit_natMask hwlt, hzw]
                    simp only [Nat.zero_testBit, List.mem_map]
                    constructor
                    · rintro (hfalse | ⟨c, hc, rfl⟩)
                      · exact absurd hfalse (by simp)
                      · exact ⟨c, hc, rfl⟩
                    · rintro ⟨c, hc, rfl⟩
                      exact Or.inr ⟨c, hc, rfl⟩
                  cases hbt : bits.testBit j <;> cases hnt : (natMask w).testBit j <;>
                    simp_all
                refine Or.inr ⟨l, List.mem_cons_self l ls, hlen5, hzw, hnodup,
                  hwlt, ?_⟩
                rw [← hbits]
                exact lineMask_eq_of_procLine hb5 heq
      · exact Or.inr ⟨l', List.mem_cons_of_mem l hl', hrest⟩

/-! ### Claim C6: the frequency table (amended characterization) -/

/-- C6 (amended): when the run completes, the frequency table's count for
a letter equals the number of its occurrences across all lines of byte
length 5, where each line contributes only the letters processed before a
repeated-letter rejection (all five when none) — so rejected lines and
discarded anagram duplicates do contribute their processed letters, and
only wrong-length lines contribute nothing. -/
theorem c6_freq_characterization (lines : List (List Nat)) (st : FilterSt)
    (h : filterRun lines = some st) (z : Nat) (hz : z < 26) :
    st.freq.getD z 0 =
      ((lines.filter fun l => byteLen l = 5).flatMap fun l =>
        countedZs l 0).count z := by
  have hmain := indexWords_freq lines initSt st h (by simp [initSt]) z hz
  rw [hmain]
  have h0 : initSt.freq.getD z 0 = 0 := by
    show (List.replicate 26 0).getD z 0 = 0
    rw [List.getD_eq_getElem?_getD, List.getElem?_replicate]
    split <;> rfl
  rw [h0]
  omega

/-- Witness for `c6_freq_characterization` on the single line `abcde`. -/
theorem c6_freq_characterization_witness :
    (⟨[31], [[0, 1, 2, 3, 4]],
      [1, 1, 1, 1, 1, 0, 0, 0, 0, 0, 0, 0, 0, 0, 0, 0, 0, 0, 0, 0, 0, 0, 0,
        0, 0, 0]⟩ : FilterSt).freq.getD 0 0 =
      (([[97, 98, 99, 100, 101]].filter fun l => byteLen l = 5).flatMap
        fun l => countedZs l 0).count 0 :=
  c6_freq_characterization [[97, 98, 99, 100, 101]] _ (by decide) 0 (by decide)

/-! ### Claim C4: anagram deduplication -/

/-- C4: the retained word list is exactly the first-spelling-per-mask
deduplication of the per-line outcomes: of all qualifying lines sharing a
natural bitmask, only the first in input order is retained, and the
natural bitmasks of the retained words are pairwise distinct. -/
theorem c4_anagram_dedup (lines : List (List Nat)) (st : FilterSt)
    (h : filterRun lines = some st) :
    st.words = (dedupFirstP (lines.filterMap lineMask) []).map Prod.snd ∧
    ((dedupFirstP (lines.filterMap lineMask) []).map Prod.fst).Nodup := by
  obtain ⟨hw, _⟩ := indexWords_dedup lines initSt st h
  exact ⟨by simpa [initSt] using hw, (dedupFirstP_fst_nodup _ []).1⟩

/-- Witness for `c4_anagram_dedup` on `["abcde", "bcdea", "abcdf"]`: the
anagram `bcdea` is dropped, its first spelling `abcde` is kept. -/
theorem c4_anagram_dedup_witness :
    (⟨[47, 31], [[0, 1, 2, 3, 4], [0, 1, 2, 3, 5]],
      [3, 3, 3, 3, 2, 1, 0, 0, 0, 0, 0, 0, 0, 0, 0, 0, 0, 0, 0, 0, 0, 0, 0,
        0, 0, 0]⟩ : FilterSt).words =
      (dedupFirstP ([[97, 98, 99, 100, 101], [98, 99, 100, 101, 97],
        [97, 98, 99, 100, 102]].filterMap lineMask) []).map Prod.snd ∧
    ((dedupFirstP ([[97, 98, 99, 100, 101], [98, 99, 100, 101, 97],
      [97, 98, 99, 100, 102]].filterMap lineMask) []).map Prod.fst).Nodup :=
  c4_anagram_dedup [[97, 98, 99, 100, 101], [98, 99, 100, 101, 97],
    [97, 98, 99, 100, 102]] _ (by decide)

/-! ### Claim C3: the word-filter postcondition -/

/-- C3 counterexample: the claim says a line is retained only if it is
exactly 5 letters long and that every retained word's natural bitmask has
popcount exactly 5.  The 4-character, 5-byte line `[353, 98, 99, 100]`
(`š` truncates to the letter code of `a`) is retained as the word
`[a, b, c, d, a]` — 4 letters, a repeated letter in the stored word, and
a natural bitmask of popcount 4. -/
theorem c3_filter_counterexample :
    retainedWordsL [[353, 98, 99, 100]] = [[0, 1, 2, 3, 0]] ∧
      lineMask [353, 98, 99, 100] = some (15, [0, 1, 2, 3, 0]) ∧
      ([353, 98, 99, 100] : List Nat).length ≠ 5 ∧
      popcount 15 ≠ 5 ∧ ¬ ([0, 1, 2, 3, 0] : List Nat).Nodup := by
  refine ⟨by decide, by decide, by decide, by decide, by decide⟩

/-- C3 (amended): for inputs whose characters are all ASCII, every
retained word comes from an input line of exactly 5 letters, equals that
line's letter codes, has no repeated letter, and its natural bitmask has
popcount exactly 5 (lines with a repeated letter are excluded entirely —
no partial word is kept). -/
theorem c3_filter_postcondition_ascii (lines : List (List Nat))
    (st : FilterSt) (hA : AllAscii lines) (h : filterRun lines = some st) :
    ∀ w ∈ st.words, ∃ l ∈ lines, l.length = 5 ∧ w = l.map zcharFrom ∧
      w.Nodup ∧ popcount (natMask w) = 5 ∧ lineMask l = some (natMask w, w) := by
  intro w hw
  rcases indexWords_words_ascii lines initSt st h hA w hw with
    h0 | ⟨l, hl, h5, hmap, hnd, hlt, hlm⟩
  · simp [initSt] at h0
  · refine ⟨l, hl, h5, hmap, hnd, ?_, hlm⟩
    rw [popcount_natMask hlt hnd, hmap, List.length_map, h5]

/-- Witness for `c3_filter_postcondition_ascii` at the word `abcde` of
`DICT5`. -/
theorem c3_filter_postcondition_ascii_witness :
    ∃ l ∈ DICT5, l.length = 5 ∧ ([0, 1, 2, 3, 4] : List Nat) = l.map zcharFrom ∧
      ([0, 1, 2, 3, 4] : List Nat).Nodup ∧
      popcount (natMask [0, 1, 2, 3, 4]) = 5 ∧
      lineMask l = some (natMask [0, 1, 2, 3, 4], [0, 1, 2, 3, 4]) :=
  c3_filter_postcondition_ascii DICT5
    ⟨[32505856, 1015808, 31744, 992, 31],
     [[0, 1, 2, 3, 4], [5, 6, 7, 8, 9], [10, 11, 12, 13, 14],
      [15, 16, 17, 18, 19], [20, 21, 22, 23, 24]],
     [1, 1, 1, 1, 1, 1, 1, 1, 1, 1, 1, 1, 1, 1, 1, 1, 1, 1, 1, 1, 1, 1, 1,
      1, 1, 0]⟩
    (by unfold AllAscii; decide) (by decide) [0, 1, 2, 3, 4] (by decide)

/-! ### The frequency sort -/

theorem insertPair_perm (x : Nat × Nat) (l : List (Nat × Nat)) :
    (insertPair x l).Perm (x :: l) := by
  induction l with
  | nil => exact List.Perm.refl _
  | cons y ys ih =>
    rw [insertPair]
    split
    · exact List.Perm.refl _
    · exact (ih.cons y).trans (List.Perm.swap x y ys)

theorem sortPairs_perm (l : List (Nat × Nat)) : (sortPairs l).Perm l := by
  induction l with
  | nil => exact List.Perm.refl _
  | cons x xs ih => exact (insertPair_perm x (sortPairs xs)).trans (ih.cons x)

theorem insertPair_sorted {x : Nat × Nat} {l : List (Nat × Nat)}
    (h : List.Pairwise (fun a b : Nat × Nat => a.2 ≤ b.2) l) :
    List.Pairwise (fun a b : Nat × Nat => a.2 ≤ b.2) (insertPair x l) := by
  induction l with
  | nil => simp [insertPair]
  | cons y ys ih =>
    rw [insertPair]
    split
    · next hle =>
      refine List.Pairwise.cons ?_ h
      intro b hb
      rcases List.mem_cons.mp hb with rfl | hb
      · exact hle
      · exact le_trans hle (List.rel_of_pairwise_cons h hb)
    · next hgt =>
      push_neg at hgt
      have hys := List.pairwise_cons.mp h
      refine List.Pairwise.cons ?_ (ih hys.2)
      intro b hb
      have hb2 : b ∈ x :: ys := (insertPair_perm x ys).mem_iff.mp hb
      rcases List.mem_cons.mp hb2 with rfl | hb'
      · exact le_of_lt hgt
      · exact hys.1 b hb'

theorem sortPairs_sorted (l : List (Nat × Nat)) :
    List.Pairwise (fun a b : Nat × Nat => a.2 ≤ b.2) (sortPairs l) := by
  induction l with
  | nil => exact List.Pairwise.nil
  | cons x xs ih => exact insertPair_sorted ih

/-! ### Facts about the sorted frequency pairs -/

theorem freqPairs_map_fst (freq : List Nat) :
    (freqPairs freq).map Prod.fst = List.range 26 := by
  rw [freqPairs, List.map_map]
  exact List.map_id _

theorem freqPairs_snd {freq : List Nat} {q : Nat × Nat}
    (h : q ∈ freqPairs freq) : q.2 = freq.getD q.1 0 := by
  rw [freqPairs] at h
  obtain ⟨i, _, rfl⟩ := List.mem_map.mp h
  rfl

theorem sorted_length (freq : List Nat) :
    (sortPairs (freqPairs freq)).length = 26 := by
  rw [(sortPairs_perm _).length_eq, freqPairs, List.length_map,
    List.length_range]

theorem sorted_fst_nodup (freq : List Nat) :
    ((sortPairs (freqPairs freq)).map Prod.fst).Nodup := by
  have hperm : ((sortPairs (freqPairs freq)).map Prod.fst).Perm
      ((freqPairs freq).map Prod.fst) := (sortPairs_perm _).map Prod.fst
  rw [freqPairs_map_fst] at hperm
  exact hperm.symm.nodup (List.nodup_range 26)

theorem sorted_mem_iff {freq : List Nat} {q : Nat × Nat} :
    q ∈ sortPairs (freqPairs freq) ↔ q ∈ freqPairs freq :=
  (sortPairs_perm _).mem_iff

theorem sorted_fst_lt {freq : List Nat} {q : Nat × Nat}
    (h : q ∈ sortPairs (freqPairs freq)) : q.1 < 26 := by
  have hm := sorted_mem_iff.mp h
  rw [freqPairs] at hm
  obtain ⟨i, hi, rfl⟩ := List.mem_map.mp hm
  simpa using List.mem_range.mp hi

theorem sorted_snd {freq : List Nat} {q : Nat × Nat}
    (h : q ∈ sortPairs (freqPairs freq)) : q.2 = freq.getD q.1 0 :=
  freqPairs_snd (sorted_mem_iff.mp h)

theorem sorted_fst_complete {freq : List Nat} {z : Nat} (hz : z < 26) :
    (z, freq.getD z 0) ∈ sortPairs (freqPairs freq) := by
  rw [sorted_mem_iff, freqPairs]
  exact List.mem_map.mpr ⟨z, List.mem_range.mpr hz, rfl⟩

/-! ### The mask lookup table -/

theorem maskLutAux_length :
    ∀ (l : List (Nat × Nat)) (i : Nat) (lut : List (Nat × Nat)),
      (maskLutAux l i lut).length = lut.length := by
  intro l
  induction l with
  | nil => intro i lut; rfl
  | cons p rest ih =>
    intro i lut
    rw [maskLutAux, ih, List.length_set]

theorem maskLutAux_getD_not_mem :
    ∀ (l : List (Nat × Nat)) (i : Nat) (lut : List (Nat × Nat)) (z : Nat),
      z ∉ l.map Prod.fst →
      (maskLutAux l i lut).getD z (0, 0) = lut.getD z (0, 0) := by
  intro l
  induction l with
  | nil => intro i lut z _; rfl
  | cons p rest ih =>
    intro i lut z hz
    rw [List.map_cons] at hz
    have hz1 : z ≠ p.1 := fun h => hz (h ▸ List.mem_cons_self _ _)
    have hz2 : z ∉ rest.map Prod.fst := fun h => hz (List.mem_cons_of_mem _ h)
    rw [maskLutAux, ih _ _ _ hz2, List.getD_eq_getElem?_getD,
      List.getElem?_set_ne (fun h => hz1 h.symm), ← List.getD_eq_getElem?_getD]

theorem maskLutAux_getD_mem :
    ∀ (l : List (Nat × Nat)) (i : Nat) (lut : List (Nat × Nat)) (k : Nat)
      (hk : k < l.length), (l.map Prod.fst).Nodup →
      (l.get ⟨k, hk⟩).1 < lut.length →
      (maskLutAux l i lut).getD (l.get ⟨k, hk⟩).1 (0, 0) = (2 ^ (i + k), i + k) := by
  intro l
  induction l with
  | nil => intro i lut k hk; simp at hk
  | cons p rest ih =>
    intro i lut k hk hnd hlt
    rw [List.map_cons, List.nodup_cons] at hnd
    cases k with
    | zero =>
      rw [maskLutAux]
      show (maskLutAux rest (i + 1) (lut.set p.1 (2 ^ i, i))).getD p.1 (0, 0) = _
      rw [maskLutAux_getD_not_mem rest (i + 1) _ p.1 hnd.1,
        List.getD_eq_getElem?_getD,
        List.getElem?_set_self (by simpa using hlt), Option.getD_some]
      simp
    | succ k' =>
      rw [maskLutAux]
      have hk' : k' < rest.length := by
        simpa using hk
      have hget : ((p :: rest).get ⟨k' + 1, hk⟩) = rest.get ⟨k', hk'⟩ := rfl
      rw [hget]
      have hlt' : (rest.get ⟨k', hk'⟩).1 < (lut.set p.1 (2 ^ i, i)).length := by
        rw [List.length_set]
        rw [hget] at hlt
        exact hlt
      have hrec := ih (i + 1) (lut.set p.1 (2 ^ i, i)) k' hk' hnd.2 hlt'
      have harith : i + 1 + k' = i + (k' + 1) := by omega
      rw [hrec, harith]

theorem maskLut_length (sorted : List (Nat × Nat)) :
    (maskLut sorted).length = 26 := by
  rw [maskLut, maskLutAux_length, List.length_replicate]

theorem maskLut_getD_at {sorted : List (Nat × Nat)}
    (hlt : ∀ q ∈ sorted, q.1 < 26) (hnd : (sorted.map Prod.fst).Nodup)
    (k : Nat) (hk : k < sorted.length) :
    (maskLut sorted).getD (sorted.get ⟨k, hk⟩).1 (0, 0) = (2 ^ k, k) := by
  have hmem : sorted.get ⟨k, hk⟩ ∈ sorted := List.get_mem sorted k hk
  have := maskLutAux_getD_mem sorted 0 (List.replicate 26 (0, 0)) k hk hnd
    (by rw [List.length_replicate]; exact hlt _ hmem)
  simpa using this

theorem mkPipe_eq {lines : List (List Nat)} {p : Pipe}
    (h : mkPipe lines = some p) :
    ∃ st, filterRun lines = some st ∧ p = pipeOfSt st := by
  rw [mkPipe] at h
  split at h
  · exact absurd h (by simp)
  · next st hst =>
    injection h with h1
    exact ⟨st, hst, h1.symm⟩

theorem pipeOfSt_fst (st : FilterSt) : (pipeOfSt st).fst = st :=
  rfl

theorem pipeOfSt_sorted (st : FilterSt) : (pipeOfSt st).sorted = sortedOf st := by
  with_reducible rfl

theorem pipeOfSt_mlut (st : FilterSt) : (pipeOfSt st).mlut = mlutOf st := by
  with_reducible rfl

theorem pipeOfSt_buckets (st : FilterSt) :
    (pipeOfSt st).buckets = (lutsOf st).buckets :=
  rfl

theorem pipeOfSt_wlut (st : FilterSt) :
    (pipeOfSt st).wlut = (lutsOf st).wlut :=
  rfl

theorem sortedOf_eq (st : FilterSt) :
    sortedOf st = sortPairs (freqPairs st.freq) :=
  rfl

theorem mlutOf_eq (st : FilterSt) : mlutOf st = maskLut (sortedOf st) :=
  rfl

theorem lutsOf_eq (st : FilterSt) :
    lutsOf st = buildLuts (mlutOf st) st.words ⟨List.replicate 26 [], []⟩ :=
  rfl

/-! ### Facts about `sortedOf` and `mlutOf` -/

theorem sortedOf_length (st : FilterSt) : (sortedOf st).length = 26 := by
  rw [sortedOf_eq]
  exact sorted_length st.freq

theorem sortedOf_fst_nodup (st : FilterSt) :
    ((sortedOf st).map Prod.fst).Nodup := by
  rw [sortedOf_eq]
  exact sorted_fst_nodup st.freq

theorem sortedOf_fst_lt {st : FilterSt} {q : Nat × Nat} (h : q ∈ sortedOf st) :
    q.1 < 26 := by
  rw [sortedOf_eq] at h
  exact sorted_fst_lt h

theorem sortedOf_snd {st : FilterSt} {q : Nat × Nat} (h : q ∈ sortedOf st) :
    q.2 = st.freq.getD q.1 0 := by
  rw [sortedOf_eq] at h
  exact sorted_snd h

theorem sortedOf_complete {st : FilterSt} {z : Nat} (hz : z < 26) :
    (z, st.freq.getD z 0) ∈ sortedOf st := by
  rw [sortedOf_eq]
  exact sorted_fst_complete hz

theorem sortedOf_sorted (st : FilterSt) :
    List.Pairwise (fun a b : Nat × Nat => a.2 ≤ b.2) (sortedOf st) := by
  rw [sortedOf_eq]
  exact sortPairs_sorted _

theorem mlutOf_getD_at {st : FilterSt} (k : Nat)
    (hk : k < (sortedOf st).length) :
    (mlutOf st).getD ((sortedOf st).get ⟨k, hk⟩).1 (0, 0) = (2 ^ k, k) := by
  rw [mlutOf_eq]
  exact maskLut_getD_at (fun q hq => sortedOf_fst_lt hq) (sortedOf_fst_nodup st)
    k hk

theorem mlutOf_spec {st : FilterSt} {z : Nat} (hz : z < 26) :
    ∃ k, ∃ hk : k < (sortedOf st).length,
      ((sortedOf st).get ⟨k, hk⟩).1 = z ∧
      (mlutOf st).getD z (0, 0) = (2 ^ k, k) ∧ k < 26 := by
  have hmem : (z, st.freq.getD z 0) ∈ sortedOf st := sortedOf_complete hz
  obtain ⟨⟨k, hk⟩, hget⟩ := List.mem_iff_get.mp hmem
  have hfst : ((sortedOf st).get ⟨k, hk⟩).1 = z := by rw [hget]
  refine ⟨k, hk, hfst, ?_, ?_⟩
  · have hat := mlutOf_getD_at k hk
    rw [hfst] at hat
    exact hat
  · have := sortedOf_length st
    omega

theorem mlutOf_pos_lt {st : FilterSt} {z : Nat} (hz : z < 26) :
    ((mlutOf st).getD z (0, 0)).2 < 26 ∧
    ((mlutOf st).getD z (0, 0)).1 = 2 ^ ((mlutOf st).getD z (0, 0)).2 := by
  obtain ⟨k, hk, _, heq, hk26⟩ := @mlutOf_spec st _ hz
  rw [heq]
  exact ⟨hk26, rfl⟩

theorem mlutOf_pos_inj {st : FilterSt} {z1 z2 : Nat} (h1 : z1 < 26)
    (h2 : z2 < 26)
    (he : ((mlutOf st).getD z1 (0, 0)).2 = ((mlutOf st).getD z2 (0, 0)).2) :
    z1 = z2 := by
  obtain ⟨k1, hk1, hf1, he1, _⟩ := @mlutOf_spec st _ h1
  obtain ⟨k2, hk2, hf2, he2, _⟩ := @mlutOf_spec st _ h2
  rw [he1, he2] at he
  simp only at he
  subst he
  rw [← hf1, ← hf2]

theorem mlutOf_pos_surj {st : FilterSt} {k : Nat} (hk : k < 26) :
    ∃ z, z < 26 ∧ ((mlutOf st).getD z (0, 0)).2 = k := by
  have hk' : k < (sortedOf st).length := by rw [sortedOf_length]; exact hk
  refine ⟨((sortedOf st).get ⟨k, hk'⟩).1, ?_, ?_⟩
  · exact sortedOf_fst_lt (List.get_mem _ k hk')
  · rw [mlutOf_getD_at k hk']

/-! ### Claim C5: remap bijectivity -/

/-- C5: the Bit Remapper assigns the 26 letters pairwise distinct bit
positions in `[0, 26)` (injective and surjective, with the bit value
`1 << position`), and a letter of minimal frequency count receives bit
position 0. -/
theorem c5_remap_bijective (lines : List (List Nat)) (p : Pipe)
    (h : mkPipe lines = some p) :
    (∀ z1 < 26, ∀ z2 < 26,
      (p.mlut.getD z1 (0, 0)).2 = (p.mlut.getD z2 (0, 0)).2 → z1 = z2) ∧
    (∀ z < 26, (p.mlut.getD z (0, 0)).2 < 26 ∧
      (p.mlut.getD z (0, 0)).1 = 2 ^ (p.mlut.getD z (0, 0)).2) ∧
    (∀ k < 26, ∃ z < 26, (p.mlut.getD z (0, 0)).2 = k) ∧
    (∃ z0 < 26, (p.mlut.getD z0 (0, 0)).2 = 0 ∧
      ∀ z < 26, p.fst.freq.getD z0 0 ≤ p.fst.freq.getD z 0) := by
  obtain ⟨st, hst, rfl⟩ := mkPipe_eq h
  simp only [pipeOfSt_mlut, pipeOfSt_fst]
  refine ⟨?_, ?_, ?_, ?_⟩
  · intro z1 h1 z2 h2 he
    exact mlutOf_pos_inj h1 h2 he
  · intro z hz
    exact mlutOf_pos_lt hz
  · intro k hk
    obtain ⟨z, hz, he⟩ := @mlutOf_pos_surj st _ hk
    exact ⟨z, hz, he⟩
  · have hlen := sortedOf_length st
    have hne : sortedOf st ≠ [] := by
      intro hnil
      rw [hnil] at hlen
      simp at hlen
    obtain ⟨a, tl, hsv⟩ := List.exists_cons_of_ne_nil hne
    have hamem : a ∈ sortedOf st := by
      rw [hsv]
      exact List.mem_cons_self a tl
    have h0 : 0 < (sortedOf st).length := by omega
    have hget0 : a = (sortedOf st).get ⟨0, h0⟩ := by
      have h1 : (sortedOf st)[0]? = some a := by rw [hsv]; simp
      have h2 : (sortedOf st)[0]? = some ((sortedOf st).get ⟨0, h0⟩) := by
        rw [List.getElem?_eq_getElem h0]
        rfl
      rw [h1] at h2
      injection h2
    refine ⟨a.1, sortedOf_fst_lt hamem, ?_, ?_⟩
    · have hat := mlutOf_getD_at 0 h0
      rw [← hget0] at hat
      rw [hat]
    · intro z hz
      have hzmem : (z, st.freq.getD z 0) ∈ sortedOf st := sortedOf_complete hz
      have hasnd : a.2 = st.freq.getD a.1 0 := sortedOf_snd hamem
      have hsorted := sortedOf_sorted st
      rw [hsv] at hsorted hzmem
      rcases List.mem_cons.mp hzmem with heq | hmem
      · have hfst : a.1 = z := by rw [← heq]
        rw [hfst]
      · have hrel := List.rel_of_pairwise_cons hsorted hmem
        rw [hasnd] at hrel
        exact hrel

/-- Witness for `c5_remap_bijective` on `DICT5`. -/
theorem c5_remap_bijective_witness :
    (∀ z1 < 26, ∀ z2 < 26,
      (((pipeOfSt ⟨[32505856, 1015808, 31744, 992, 31],
        [[0, 1, 2, 3, 4], [5, 6, 7, 8, 9], [10, 11, 12, 13, 14],
         [15, 16, 17, 18, 19], [20, 21, 22, 23, 24]],
        [1, 1, 1, 1, 1, 1, 1, 1, 1, 1, 1, 1, 1, 1, 1, 1, 1, 1, 1, 1, 1, 1,
         1, 1, 1, 0]⟩).mlut.getD z1 (0, 0)).2 =
        ((pipeOfSt ⟨[32505856, 1015808, 31744, 992, 31],
        [[0, 1, 2, 3, 4], [5, 6, 7, 8, 9], [10, 11, 12, 13, 14],
         [15, 16, 17, 18, 19], [20, 21, 22, 23, 24]],
        [1, 1, 1, 1, 1, 1, 1, 1, 1, 1, 1, 1, 1, 1, 1, 1, 1, 1, 1, 1, 1, 1,
         1, 1, 1, 0]⟩).mlut.getD z2 (0, 0)).2 → z1 = z2)) ∧
    (∃ z0 < 26,
      ((pipeOfSt ⟨[32505856, 1015808, 31744, 992, 31],
        [[0, 1, 2, 3, 4], [5, 6, 7, 8, 9], [10, 11, 12, 13, 14],
         [15, 16, 17, 18, 19], [20, 21, 22, 23, 24]],
        [1, 1, 1, 1, 1, 1, 1, 1, 1, 1, 1, 1, 1, 1, 1, 1, 1, 1, 1, 1, 1, 1,
         1, 1, 1, 0]⟩).mlut.getD z0 (0, 0)).2 = 0) := by
  have hmain := c5_remap_bijective DICT5
    (pipeOfSt ⟨[32505856, 1015808, 31744, 992, 31],
      [[0, 1, 2, 3, 4], [5, 6, 7, 8, 9], [10, 11, 12, 13, 14],
       [15, 16, 17, 18, 19], [20, 21, 22, 23, 24]],
      [1, 1, 1, 1, 1, 1, 1, 1, 1, 1, 1, 1, 1, 1, 1, 1, 1, 1, 1, 1, 1, 1,
       1, 1, 1, 0]⟩) (by decide)
  obtain ⟨hinj, _, _, z0, hz0, hz00, _⟩ := hmain
  exact ⟨hinj, z0, hz0, hz00⟩

/-! ### Well-formedness of retained words -/

theorem procLine_zwrd_wf :
    ∀ (cs : List Nat) (i bits : Nat) (zwrd freq f1 : List Nat) (bits1 : Nat)
      (zwrd1 : List Nat),
      procLine cs i bits zwrd freq = some (f1, some (bits1, zwrd1)) →
      zwrd1.length = zwrd.length ∧ ∀ z ∈ zwrd1, z ∈ zwrd ∨ z < 26 := by
  intro cs
  induction cs with
  | nil =>
    intro i bits zwrd freq f1 bits1 zwrd1 h
    simp only [procLine, Option.some.injEq, Prod.mk.injEq] at h
    rw [← h.2.2]
    exact ⟨rfl, fun z hz => Or.inl hz⟩
  | cons c cs ih =>
    intro i bits zwrd freq f1 bits1 zwrd1 h
    simp only [procLine] at h
    by_cases hdup : bits &&& zmask (zcharFrom c) ≠ 0
    · rw [if_pos hdup] at h
      simp at h
    · rw [if_neg hdup] at h
      by_cases hz : zcharFrom c < 26
      · rw [if_pos hz] at h
        obtain ⟨hlen, hmem⟩ := ih _ _ _ _ _ _ _ h
        refine ⟨by rw [hlen, List.length_set], ?_⟩
        intro z hzm
        rcases hmem z hzm with hzin | hzlt
        · rcases List.mem_or_eq_of_mem_set hzin with hzin2 | rfl
          · exact Or.inl hzin2
          · exact Or.inr hz
        · exact Or.inr hzlt
      · rw [if_neg hz] at h
        exact absurd h (by simp)

theorem indexWords_words_wf :
    ∀ (ls : List (List Nat)) (st st' : FilterSt),
      indexWords st ls = some st' →
      (∀ w ∈ st.words, w.length = 5 ∧ ∀ z ∈ w, z < 26) →
      ∀ w ∈ st'.words, w.length = 5 ∧ ∀ z ∈ w, z < 26 := by
  intro ls
  induction ls with
  | nil =>
    intro st st' h hstw
    cases h
    exact hstw
  | cons l ls ih =>
    intro st st' h hstw
    rw [indexWords] at h
    split at h
    · exact absurd h (by simp)
    · next st1 hst =>
      refine ih st1 st' h ?_
      rw [stepLine] at hst
      split at hst
      · cases hst
        exact hstw
      · split at hst
        · exact absurd hst (by simp)
        · next freq1 heq =>
          cases hst
          exact hstw
        · next freq1 bits zwrd heq =>
          split at hst <;> cases hst
          · exact hstw
          · intro w hw
            simp only at hw
            rcases List.mem_append.mp hw with hw2 | hw2
            · exact hstw w hw2
            · have hwz : w = zwrd := List.mem_singleton.mp hw2
              subst hwz
              obtain ⟨hlen, hmem⟩ := procLine_zwrd_wf l 0 0 [0, 0, 0, 0, 0]
                st.freq freq1 bits w heq
              refine ⟨by rw [hlen]; rfl, ?_⟩
              intro z hz
              rcases hmem z hz with hzin | hzlt
              · have : z = 0 := by simpa using hzin
                omega
              · exact hzlt

theorem filterRun_words_wf {lines : List (List Nat)} {st : FilterSt}
    (h : filterRun lines = some st) :
    ∀ w ∈ st.words, w.length = 5 ∧ ∀ z ∈ w, z < 26 := by
  refine indexWords_words_wf lines initSt st h ?_
  intro w hw
  simp [initSt] at hw

/-! ### Remapped masks of words -/

theorem testBit_remapMask {st : FilterSt} {w : List Nat}
    (hw : ∀ z ∈ w, z < 26) (j : Nat) :
    (remapMask (mlutOf st) w).testBit j = true ↔
      ∃ z ∈ w, ((mlutOf st).getD z (0, 0)).2 = j := by
  rw [remapMask,
    testBit_foldl_lor (g := fun z => ((mlutOf st).getD z (0, 0)).1)]
  constructor
  · rintro (h0 | ⟨z, hz, ht⟩)
    · rw [Nat.zero_testBit] at h0
      exact absurd h0 (by simp)
    · obtain ⟨hpos, hbit⟩ := mlutOf_pos_lt (hw z hz)
      rw [hbit, Nat.testBit_two_pow, decide_eq_true_eq] at ht
      exact ⟨z, hz, ht⟩
  · rintro ⟨z, hz, hpos⟩
    refine Or.inr ⟨z, hz, ?_⟩
    obtain ⟨hlt, hbit⟩ := mlutOf_pos_lt (hw z hz)
    rw [hbit, hpos]
    exact Nat.testBit_two_pow_self

theorem remapMask_lt {st : FilterSt} {w : List Nat}
    (hw : ∀ z ∈ w, z < 26) : remapMask (mlutOf st) w < 2 ^ 26 := by
  rw [remapMask]
  refine foldl_lor_lt (g := fun z => ((mlutOf st).getD z (0, 0)).1) w 0
    (Nat.pos_pow_of_pos 26 (by norm_num)) ?_
  intro z hz
  obtain ⟨hlt, hbit⟩ := @mlutOf_pos_lt st _ (hw z hz)
  show ((mlutOf st).getD z (0, 0)).1 < 2 ^ 26
  rw [hbit]
  exact Nat.pow_lt_pow_right (by norm_num) hlt

theorem popcount_remapMask_five {st : FilterSt} {w : List Nat}
    (hw : ∀ z ∈ w, z < 26) (hnd : w.Nodup) (hlen : w.length = 5) :
    popcount (remapMask (mlutOf st) w) = 5 := by
  rw [popcount_eq_card_of_lt (by norm_num) (remapMask_lt hw)]
  have hmapnd : (w.map fun z => ((mlutOf st).getD z (0, 0)).2).Nodup := by
    refine List.Nodup.map_on ?_ hnd
    intro x hx y hy hxy
    exact mlutOf_pos_inj (hw x hx) (hw y hy) hxy
  have hcard := List.toFinset_card_of_nodup hmapnd
  rw [List.length_map, hlen] at hcard
  rw [← hcard]
  congr 1
  apply Finset.ext
  intro j
  rw [Finset.mem_filter, Finset.mem_range, List.mem_toFinset]
  constructor
  · rintro ⟨_, ht⟩
    obtain ⟨z, hz, hpos⟩ := (testBit_remapMask hw j).mp ht
    exact List.mem_map.mpr ⟨z, hz, hpos⟩
  · intro hj
    obtain ⟨z, hz, hpos⟩ := List.mem_map.mp hj
    refine ⟨?_, (testBit_remapMask hw j).mpr ⟨z, hz, hpos⟩⟩
    have := (@mlutOf_pos_lt st _ (hw z hz)).1
    omega

/-! ### Bucket and word-table construction -/

theorem mem_set_getD {l : List (List Nat)} {i j : Nat} {x : List Nat}
    {b : Nat} (h : b ∈ (l.set i x).getD j []) :
    b ∈ l.getD j [] ∨ (j = i ∧ b ∈ x) := by
  by_cases hji : j = i
  · subst hji
    by_cases hlt : j < l.length
    · rw [List.getD_eq_getElem?_getD, List.getElem?_set_self hlt,
        Option.getD_some] at h
      exact Or.inr ⟨rfl, h⟩
    · rw [List.set_eq_of_length_le (by omega)] at h
      exact Or.inl h
  · rw [List.getD_eq_getElem?_getD,
      List.getElem?_set_ne (fun he => hji he.symm),
      ← List.getD_eq_getElem?_getD] at h
    exact Or.inl h

theorem buildLuts_buckets_mem :
    ∀ (lut : List (Nat × Nat)) (ws : List (List Nat)) (acc : Luts) (j b : Nat),
      b ∈ (buildLuts lut ws acc).buckets.getD j [] →
      b ∈ acc.buckets.getD j [] ∨ ∃ w ∈ ws, b = remapMask lut w := by
  intro lut ws
  induction ws with
  | nil => intro acc j b h; exact Or.inl h
  | cons w ws ih =>
    intro acc j b h
    rw [buildLuts] at h
    rcases ih _ j b h with hacc | ⟨w', hw', hb⟩
    · simp only at hacc
      rcases mem_set_getD hacc with hold | ⟨hj, hmem⟩
      · exact Or.inl hold
      · rcases List.mem_append.mp hmem with hold2 | hsing
        · rw [hj]
          exact Or.inl hold2
        · have hb : b = remapMask lut w := List.mem_singleton.mp hsing
          exact Or.inr ⟨w, List.mem_cons_self w ws, hb⟩
    · exact Or.inr ⟨w', List.mem_cons_of_mem w hw', hb⟩

theorem lookup_isSome_cons {m : Nat} {pr : Nat × List Nat}
    {l : List (Nat × List Nat)} (h : (List.lookup m l).isSome) :
    (List.lookup m (pr :: l)).isSome := by
  obtain ⟨k, v⟩ := pr
  simp only [List.lookup]
  split
  · rfl
  · exact h

theorem buildLuts_wlut_mono :
    ∀ (lut : List (Nat × Nat)) (ws : List (List Nat)) (acc : Luts) (m : Nat),
      (List.lookup m acc.wlut).isSome →
      (List.lookup m (buildLuts lut ws acc).wlut).isSome := by
  intro lut ws
  induction ws with
  | nil => intro acc m h; exact h
  | cons w ws ih =>
    intro acc m h
    rw [buildLuts]
    exact ih _ m (lookup_isSome_cons h)

theorem buildLuts_wlut_of_mem :
    ∀ (lut : List (Nat × Nat)) (ws : List (List Nat)) (acc : Luts),
      ∀ w ∈ ws,
      (List.lookup (remapMask lut w) (buildLuts lut ws acc).wlut).isSome := by
  intro lut ws
  induction ws with
  | nil => intro acc w hw; simp at hw
  | cons w' ws ih =>
    intro acc w hw
    rcases List.mem_cons.mp hw with rfl | hw
    · rw [buildLuts]
      refine buildLuts_wlut_mono lut ws _ _ ?_
      simp only [List.lookup]
      rw [beq_self_eq_true]
      rfl
    · exact ih _ w hw

theorem getD_replicate_nil (j : Nat) :
    (List.replicate 26 ([] : List Nat)).getD j [] = [] := by
  rw [List.getD_eq_getElem?_getD]
  by_cases hj : j < 26
  · rw [List.getElem?_replicate, if_pos hj]
    rfl
  · rw [List.getElem?_eq_none]
    · rfl
    · rw [List.length_replicate]
      omega

theorem bucket_mem_retained {st : FilterSt} {j b : Nat}
    (h : b ∈ (lutsOf st).buckets.getD j []) :
    ∃ w ∈ st.words, b = remapMask (mlutOf st) w := by
  rw [lutsOf_eq] at h
  rcases buildLuts_buckets_mem (mlutOf st) st.words _ j b h with hinit | hfound
  · rw [show (⟨List.replicate 26 [], []⟩ : Luts).buckets =
      List.replicate 26 [] from rfl, getD_replicate_nil] at hinit
    simp at hinit
  · exact hfound

theorem resolveSol_isSome {wlut : List (Nat × List Nat)} :
    ∀ {sol : List Nat}, (∀ m ∈ sol, (List.lookup m wlut).isSome) →
      (resolveSol wlut sol).isSome := by
  intro sol
  induction sol with
  | nil => intro _; rfl
  | cons m rest ih =>
    intro h
    have hm := h m (List.mem_cons_self m rest)
    obtain ⟨v, hv⟩ := Option.isSome_iff_exists.mp hm
    have hrest := ih fun m' hm' => h m' (List.mem_cons_of_mem m hm')
    obtain ⟨vs, hvs⟩ := Option.isSome_iff_exists.mp hrest
    rw [resolveSol] at hvs ⊢
    rw [List.mapM_cons, hv, hvs]
    rfl

/-! ### Claim C9: mask-to-word lookup cannot fail -/

/-- C9: resolving the five selected bitmasks of any reported solution
back to words through `word_lut` never fails: every mask selected during
the search was taken from a bucket, and every mask inserted into a bucket
was also inserted into `word_lut` by the same loop iteration. -/
theorem c9_lookup_total (lines : List (List Nat)) (p : Pipe)
    (h : mkPipe lines = some p) :
    ∀ sol ∈ allReports p, (resolveSol p.wlut sol).isSome := by
  obtain ⟨st, hst, rfl⟩ := mkPipe_eq h
  intro sol hsol
  rw [allReports] at hsol
  obtain ⟨i, _, hmem⟩ := List.mem_flatMap.mp hsol
  rw [runSeed, pipeOfSt_buckets] at hmem
  obtain ⟨ext, rfl, hlen, hchain⟩ := searchF_sound_chain hmem
  rw [pipeOfSt_wlut]
  refine resolveSol_isSome ?_
  intro m hm
  obtain ⟨j, hbucket⟩ := selChain_mem_bucket hchain m hm
  obtain ⟨w, hw, rfl⟩ := bucket_mem_retained hbucket
  rw [lutsOf_eq]
  exact buildLuts_wlut_of_mem (mlutOf st) st.words _ w hw

/-- Witness for `c9_lookup_total` at the solution reported on `DICT5`. -/
theorem c9_lookup_total_witness :
    (resolveSol (pipeOfSt ⟨[32505856, 1015808, 31744, 992, 31],
      [[0, 1, 2, 3, 4], [5, 6, 7, 8, 9], [10, 11, 12, 13, 14],
       [15, 16, 17, 18, 19], [20, 21, 22, 23, 24]],
      [1, 1, 1, 1, 1, 1, 1, 1, 1, 1, 1, 1, 1, 1, 1, 1, 1, 1, 1, 1, 1, 1,
       1, 1, 1, 0]⟩).wlut
      [62, 1984, 63488, 2031616, 65011712]).isSome :=
  c9_lookup_total DICT5 _ (by decide) [62, 1984, 63488, 2031616, 65011712]
    (by decide)

/-! ### Popcount of a disjoint union -/

theorem popcount_unionMasks {sol : List Nat}
    (hp : sol.Pairwise (fun a b => a &&& b = 0))
    (hb : ∀ m ∈ sol, m < 2 ^ 26) :
    popcount (unionMasks sol) = (sol.map popcount).sum := by
  induction sol with
  | nil => rfl
  | cons x xs ih =>
    obtain ⟨hhead, htail⟩ := List.pairwise_cons.mp hp
    have hbx : x < 2 ^ 26 := hb x (List.mem_cons_self x xs)
    have hbxs : ∀ m ∈ xs, m < 2 ^ 26 :=
      fun m hm => hb m (List.mem_cons_of_mem x hm)
    have hdisj : x &&& unionMasks xs = 0 := by
      rw [land_eq_zero_iff]
      rintro i ⟨hx, hu⟩
      obtain ⟨m, hm, hmt⟩ := testBit_unionMasks.mp hu
      exact (land_eq_zero_iff.mp (hhead m hm)) i ⟨hx, hmt⟩
    rw [unionMasks_cons, List.map_cons, List.sum_cons,
      popcount_lor_disjoint (n := 26) (by norm_num) hbx
        (unionMasks_lt_two_pow hbxs) hdisj,
      ih htail hbxs]

theorem sum_map_const_of {f : Nat → Nat} {c : Nat} :
    ∀ {l : List Nat}, (∀ m ∈ l, f m = c) → (l.map f).sum = c * l.length := by
  intro l
  induction l with
  | nil => intro _; simp
  | cons x xs ih =>
    intro h
    rw [List.map_cons, List.sum_cons, List.length_cons,
      h x (List.mem_cons_self x xs),
      ih fun m hm => h m (List.mem_cons_of_mem x hm)]
    ring

/-! ### Claim C1: soundness of reported solutions -/

/-- C1 (amended): on inputs whose characters are all ASCII, every 5-word
solution reported by any seeded search consists of five retained words'
remapped masks that are pairwise disjoint, and their union has popcount
exactly 25.  (On non-ASCII inputs a retained word's mask can have
popcount 4 and a reported union popcount 24.) -/
theorem c1_soundness_of_reports (lines : List (List Nat)) (p : Pipe)
    (hA : AllAscii lines) (h : mkPipe lines = some p) :
    ∀ sol ∈ allReports p,
      sol.Pairwise (fun a b => a &&& b = 0) ∧
      (∀ m ∈ sol, m ∈ retainedMasks p) ∧
      popcount (unionMasks sol) = 25 := by
  obtain ⟨st, hst, rfl⟩ := mkPipe_eq h
  intro sol hsol
  rw [allReports] at hsol
  obtain ⟨i, _, hmem⟩ := List.mem_flatMap.mp hsol
  rw [runSeed, pipeOfSt_buckets] at hmem
  obtain ⟨ext, rfl, hlen, hchain⟩ := searchF_sound_chain hmem
  have hretained : ∀ m ∈ sol, ∃ w ∈ st.words, m = remapMask (mlutOf st) w := by
    intro m hm
    obtain ⟨j, hbucket⟩ := selChain_mem_bucket hchain m hm
    exact bucket_mem_retained hbucket
  have hwprops : ∀ w ∈ st.words, w.Nodup ∧ (∀ z ∈ w, z < 26) ∧ w.length = 5 := by
    intro w hw
    rcases indexWords_words_ascii lines initSt st hst hA w hw with
      h0 | ⟨l, _, h5, hmap, hnd, hlt, _⟩
    · simp [initSt] at h0
    · exact ⟨hnd, hlt, by rw [hmap, List.length_map, h5]⟩
  have hpc : ∀ m ∈ sol, popcount m = 5 := by
    intro m hm
    obtain ⟨w, hw, rfl⟩ := hretained m hm
    obtain ⟨hnd, hlt, h5⟩ := hwprops w hw
    exact popcount_remapMask_five hlt hnd h5
  have hlt26 : ∀ m ∈ sol, m < 2 ^ 26 := by
    intro m hm
    obtain ⟨w, hw, rfl⟩ := hretained m hm
    exact remapMask_lt (hwprops w hw).2.1
  refine ⟨selChain_pairwise hchain, ?_, ?_⟩
  · intro m hm
    obtain ⟨w, hw, rfl⟩ := hretained m hm
    rw [retainedMasks, pipeOfSt_fst, pipeOfSt_mlut]
    exact List.mem_map.mpr ⟨w, hw, rfl⟩
  · rw [popcount_unionMasks (selChain_pairwise hchain) hlt26,
      sum_map_const_of hpc, hlen]

/-- Witness for `c1_soundness_of_reports` at the solution reported on
`DICT5`. -/
theorem c1_soundness_of_reports_witness :
    ([62, 1984, 63488, 2031616, 65011712] : List Nat).Pairwise
      (fun a b => a &&& b = 0) ∧
    (∀ m ∈ ([62, 1984, 63488, 2031616, 65011712] : List Nat),
      m ∈ retainedMasks (pipeOfSt ⟨[32505856, 1015808, 31744, 992, 31],
        [[0, 1, 2, 3, 4], [5, 6, 7, 8, 9], [10, 11, 12, 13, 14],
         [15, 16, 17, 18, 19], [20, 21, 22, 23, 24]],
        [1, 1, 1, 1, 1, 1, 1, 1, 1, 1, 1, 1, 1, 1, 1, 1, 1, 1, 1, 1, 1, 1,
         1, 1, 1, 0]⟩)) ∧
    popcount (unionMasks [62, 1984, 63488, 2031616, 65011712]) = 25 :=
  c1_soundness_of_reports DICT5 _ (by unfold AllAscii; decide) (by decide)
    [62, 1984, 63488, 2031616, 65011712] (by decide)

/-! ### Seed-26 bisimulation -/

theorem trailingOnes_le_of_testBit_false {m i : Nat}
    (h : m.testBit i = false) : trailingOnes m ≤ i := by
  by_contra hgt
  push_neg at hgt
  have := testBit_of_lt_trailingOnes (m := m) (i := i) hgt
  rw [h] at this
  exact Bool.noConfusion this

theorem trailingOnes_lor_high {c s : Nat} (hc : c < 2 ^ 25) (hs : 25 ≤ s)
    (hs32 : s < 32) (ht : trailingOnes c < 25) :
    trailingOnes (2 ^ s ||| c) = trailingOnes c := by
  refine trailingOnes_eq_of ?_ ?_ (by omega)
  · intro i hi
    rw [Nat.testBit_lor, testBit_of_lt_trailingOnes hi, Bool.or_true]
  · rw [Nat.testBit_lor, Nat.testBit_two_pow_of_ne (by omega),
      testBit_trailingOnes (lt_of_lt_of_le hc (by norm_num)), Bool.or_false]

theorem trailingOnes_lt_of_popcount {c : Nat} (hc : c < 2 ^ 25)
    (hpc : popcount c ≤ 20) : trailingOnes c < 25 := by
  by_contra hge
  push_neg at hge
  have hall : ∀ i ∈ Finset.range 25, c.testBit i = true := by
    intro i hi
    rw [Finset.mem_range] at hi
    exact testBit_of_lt_trailingOnes (by omega)
  have h25 : popcount c = 25 := by
    rw [popcount_eq_card_of_lt (by norm_num) hc,
      Finset.filter_true_of_mem hall, Finset.card_range]
  omega

theorem lt_two_pow_of_high_false {x n : Nat} (hx : x < 2 ^ (n + 1))
    (hb : x.testBit n = false) : x < 2 ^ n := by
  by_contra hge
  push_neg at hge
  have hx2 : x < 2 ^ n * 2 := by
    rw [← Nat.pow_succ]
    exact hx
  have hdiv : x / 2 ^ n = 1 := by
    apply Nat.div_eq_of_lt_le
    · rw [one_mul]
      exact hge
    · omega
  rw [Nat.testBit_to_div_mod, hdiv] at hb
  simp at hb

theorem popcount_lor_le {a b : Nat} (ha : a < 2 ^ 26) (hb : b < 2 ^ 26) :
    popcount (a ||| b) ≤ popcount a + popcount b := by
  have hab : a ||| b < 2 ^ 26 := Nat.bitwise_lt_two_pow ha hb
  rw [popcount_eq_card_of_lt (by norm_num) hab,
    popcount_eq_card_of_lt (by norm_num) ha,
    popcount_eq_card_of_lt (by norm_num) hb]
  refine le_trans (Finset.card_le_card ?_) (Finset.card_union_le _ _)
  intro i hi
  rw [Finset.mem_filter, Finset.mem_range] at hi
  rw [Nat.testBit_lor, Bool.or_eq_true] at hi
  rw [Finset.mem_union, Finset.mem_filter, Finset.mem_filter,
    Finset.mem_range]
  rcases hi.2 with h | h
  · exact Or.inl ⟨hi.1, h⟩
  · exact Or.inr ⟨hi.1, h⟩

theorem searchF_seed25_sub_seed26 {buckets : List (List Nat)}
    (hB : ∀ j, ∀ b ∈ buckets.getD j [], b < 2 ^ 26 ∧ popcount b ≤ 5) :
    ∀ (fuel : Nat) (sel : List Nat) (c : Nat), c < 2 ^ 25 →
      popcount c + 5 * fuel ≤ 25 →
      ∀ sol, sol ∈ searchF buckets fuel sel (2 ^ 25 ||| c) →
        sol ∈ searchF buckets fuel sel (2 ^ 26 ||| c) := by
  intro fuel
  induction fuel with
  | zero =>
    intro sel c _ _ sol hsol
    have h1 : searchF buckets 0 sel (2 ^ 25 ||| c) = [sel] := rfl
    have h2 : searchF buckets 0 sel (2 ^ 26 ||| c) = [sel] := rfl
    rw [h2]
    rw [h1] at hsol
    exact hsol
  | succ f ih =>
    intro sel c hc hpc sol hsol
    have hpc20 : popcount c ≤ 20 := by omega
    have ht : trailingOnes c < 25 := trailingOnes_lt_of_popcount hc hpc20
    have ht25 : trailingOnes (2 ^ 25 ||| c) = trailingOnes c :=
      trailingOnes_lor_high hc (by norm_num) (by norm_num) ht
    have ht26 : trailingOnes (2 ^ 26 ||| c) = trailingOnes c :=
      trailingOnes_lor_high hc (by norm_num) (by norm_num) ht
    rw [mem_searchF_succ] at hsol ⊢
    obtain ⟨bits, hb, hd, hs⟩ := hsol
    rw [ht25] at hb
    obtain ⟨hbits26, hbitspc⟩ := hB _ bits hb
    have hcd : c &&& bits = 0 := land_eq_zero_of_lor_right hd
    have h25d : 2 ^ 25 &&& bits = 0 := land_eq_zero_of_lor_left hd
    have hbits25f : bits.testBit 25 = false := by
      by_contra hbt
      rw [Bool.not_eq_false] at hbt
      exact (land_eq_zero_iff.mp h25d) 25 ⟨Nat.testBit_two_pow_self, hbt⟩
    have hbits25 : bits < 2 ^ 25 := lt_two_pow_of_high_false hbits26 hbits25f
    have hd26 : (2 ^ 26 ||| c) &&& bits = 0 := by
      rw [land_eq_zero_iff]
      rintro i ⟨hl, hr⟩
      rw [Nat.testBit_lor, Bool.or_eq_true] at hl
      rcases hl with hl | hl
      · rw [Nat.testBit_two_pow, decide_eq_true_eq] at hl
        subst hl
        have : bits.testBit 26 = false := Nat.testBit_lt_two_pow hbits26
        rw [this] at hr
        exact Bool.noConfusion hr
      · exact (land_eq_zero_iff.mp hcd) i ⟨hl, hr⟩
    refine ⟨bits, ?_, hd26, ?_⟩
    · rw [ht26]
      exact hb
    · rw [Nat.lor_assoc] at hs ⊢
      have hc' : c ||| bits < 2 ^ 25 := Nat.bitwise_lt_two_pow hc hbits25
      have hpc' : popcount (c ||| bits) + 5 * f ≤ 25 := by
        have := popcount_lor_le (lt_of_lt_of_le hc (by norm_num)) hbits26
        omega
      exact ih (sel ++ [bits]) (c ||| bits) hc' hpc' sol hs

theorem popcount_remapMask_le {st : FilterSt} {w : List Nat}
    (hw : ∀ z ∈ w, z < 26) :
    popcount (remapMask (mlutOf st) w) ≤ w.length := by
  rw [popcount_eq_card_of_lt (by norm_num) (remapMask_lt hw)]
  refine le_trans (Finset.card_le_card (t :=
    (w.map fun z => ((mlutOf st).getD z (0, 0)).2).toFinset) ?_)
    (le_trans (List.toFinset_card_le _) (by rw [List.length_map]))
  intro j hj
  rw [Finset.mem_filter] at hj
  obtain ⟨z, hz, hpos⟩ := (testBit_remapMask hw j).mp hj.2
  rw [List.mem_toFinset]
  exact List.mem_map.mpr ⟨z, hz, hpos⟩

theorem bucket_masks_bound {st : FilterSt} {lines : List (List Nat)}
    (hst : filterRun lines = some st) (j : Nat) :
    ∀ b ∈ (lutsOf st).buckets.getD j [], b < 2 ^ 26 ∧ popcount b ≤ 5 := by
  intro b hb
  obtain ⟨w, hw, rfl⟩ := bucket_mem_retained hb
  obtain ⟨hw5, hwlt⟩ := filterRun_words_wf hst w hw
  refine ⟨remapMask_lt hwlt, ?_⟩
  have hle := @popcount_remapMask_le st _ hwlt
  omega

/-! ### Claim C10: the extra boundary seed -/

/-- C10 (amended): seed 26 reports a superset of seed 25's solutions —
every solution reported by the search seeded with bit 25 is also reported
by the search seeded with bit 26.  The converse fails: seed 26 behaves
like an unseeded search and can also report solutions whose unused
remapped bit is below 25 (see the counterexample), so it is not an exact
duplicate of seed 25. -/
theorem c10_seed26_superset_of_seed25 (lines : List (List Nat)) (p : Pipe)
    (h : mkPipe lines = some p) :
    ∀ sol ∈ runSeed p 25, sol ∈ runSeed p 26 := by
  obtain ⟨st, hst, rfl⟩ := mkPipe_eq h
  intro sol hsol
  rw [runSeed, pipeOfSt_buckets] at hsol ⊢
  have hB : ∀ j, ∀ b ∈ (lutsOf st).buckets.getD j [],
      b < 2 ^ 26 ∧ popcount b ≤ 5 := fun j => bucket_masks_bound hst j
  have h25 : (2 ^ 25 : Nat) = 2 ^ 25 ||| 0 := by simp
  have h26 : (2 ^ 26 : Nat) = 2 ^ 26 ||| 0 := by simp
  rw [h26]
  rw [h25] at hsol
  exact searchF_seed25_sub_seed26 hB 5 [] 0
    (Nat.pos_pow_of_pos 25 (by norm_num)) (by decide) sol hsol

/-- Witness for `c10_seed26_superset_of_seed25` on `DICTW`, whose only
solution leaves the letter of remapped bit 25 unused and is reported by
both seed 25 and seed 26. -/
theorem c10_seed26_superset_of_seed25_witness :
    [31, 992, 31744, 1015808, 32505856] ∈
      runSeed (pipeOfSt ⟨[32505856, 1015808, 31744, 992, 31],
        [[0, 1, 2, 3, 4], [5, 6, 7, 8, 9], [10, 11, 12, 13, 14],
         [15, 16, 17, 18, 19], [20, 21, 22, 23, 24]],
        [1, 1, 1, 1, 1, 1, 1, 1, 1, 1, 1, 1, 1, 1, 1, 1, 1, 1, 1, 1, 1, 1,
         1, 1, 1, 2]⟩) 26 :=
  c10_seed26_superset_of_seed25 DICTW _ (by decide)
    [31, 992, 31744, 1015808, 32505856] (by decide)

/-! ### Bucket membership for retained words -/

theorem buildLuts_buckets_length :
    ∀ (lut : List (Nat × Nat)) (ws : List (List Nat)) (acc : Luts),
      (buildLuts lut ws acc).buckets.length = acc.buckets.length := by
  intro lut ws
  induction ws with
  | nil => intro acc; rfl
  | cons w ws ih =>
    intro acc
    rw [buildLuts, ih]
    simp only [List.length_set]

theorem buildLuts_buckets_mono :
    ∀ (lut : List (Nat × Nat)) (ws : List (List Nat)) (acc : Luts) (j b : Nat),
      b ∈ acc.buckets.getD j [] →
      b ∈ (buildLuts lut ws acc).buckets.getD j [] := by
  intro lut ws
  induction ws with
  | nil => intro acc j b h; exact h
  | cons w ws ih =>
    intro acc j b h
    rw [buildLuts]
    refine ih _ j b ?_
    simp only
    by_cases hji : j = lowbitOf lut w
    · subst hji
      by_cases hlt : lowbitOf lut w < acc.buckets.length
      · rw [List.getD_eq_getElem?_getD, List.getElem?_set_self hlt,
          Option.getD_some]
        exact List.mem_append.mpr (Or.inl h)
      · rw [List.set_eq_of_length_le (by omega)]
        exact h
    · rw [List.getD_eq_getElem?_getD,
        List.getElem?_set_ne (fun he => hji he.symm),
        ← List.getD_eq_getElem?_getD]
      exact h

theorem buildLuts_buckets_of_mem :
    ∀ (lut : List (Nat × Nat)) (ws : List (List Nat)) (acc : Luts),
      acc.buckets.length = 26 →
      ∀ w ∈ ws, lowbitOf lut w < 26 →
      remapMask lut w ∈ (buildLuts lut ws acc).buckets.getD (lowbitOf lut w) [] := by
  intro lut ws
  induction ws with
  | nil => intro acc _ w hw; simp at hw
  | cons w' ws ih =>
    intro acc hlen w hw hlb
    rcases List.mem_cons.mp hw with rfl | hw
    · rw [buildLuts]
      refine buildLuts_buckets_mono lut ws _ _ _ ?_
      simp only
      rw [List.getD_eq_getElem?_getD, List.getElem?_set_self (by omega),
        Option.getD_some]
      exact List.mem_append.mpr (Or.inr (List.mem_singleton.mpr rfl))
    · rw [buildLuts]
      refine ih _ ?_ w hw hlb
      simp only [List.length_set]
      exact hlen

/-! ### The lowbit of a word is the least set bit of its mask -/

theorem foldl_min_le_init {g : Nat → Nat} :
    ∀ (l : List Nat) (a : Nat), l.foldl (fun acc x => min acc (g x)) a ≤ a := by
  intro l
  induction l with
  | nil => intro a; exact le_refl a
  | cons x xs ih =>
    intro a
    rw [List.foldl_cons]
    exact le_trans (ih _) (min_le_left _ _)

theorem foldl_min_le {g : Nat → Nat} :
    ∀ (l : List Nat) (a z : Nat), z ∈ l →
      l.foldl (fun acc x => min acc (g x)) a ≤ g z := by
  intro l
  induction l with
  | nil => intro a z hz; simp at hz
  | cons x xs ih =>
    intro a z hz
    rw [List.foldl_cons]
    rcases List.mem_cons.mp hz with rfl | hz
    · exact le_trans (foldl_min_le_init xs _) (min_le_right _ _)
    · exact ih _ z hz

theorem le_foldl_min {g : Nat → Nat} :
    ∀ (l : List Nat) (a t : Nat), t ≤ a → (∀ z ∈ l, t ≤ g z) →
      t ≤ l.foldl (fun acc x => min acc (g x)) a := by
  intro l
  induction l with
  | nil => intro a t ht _; exact ht
  | cons x xs ih =>
    intro a t ht hall
    rw [List.foldl_cons]
    refine ih _ t (le_min ht (hall x (List.mem_cons_self x xs))) ?_
    intro z hz
    exact hall z (List.mem_cons_of_mem x hz)

theorem lowbitOf_eq_least {st : FilterSt} {w : List Nat} {t : Nat}
    (hz : ∀ z ∈ w, z < 26)
    (ht : (remapMask (mlutOf st) w).testBit t = true)
    (hmin : ∀ i < t, (remapMask (mlutOf st) w).testBit i = false) :
    lowbitOf (mlutOf st) w = t := by
  obtain ⟨z0, hz0, hpos0⟩ := (testBit_remapMask hz t).mp ht
  refine le_antisymm ?_ ?_
  · rw [lowbitOf]
    have hle := foldl_min_le (g := fun z => ((mlutOf st).getD z (0, 0)).2) w 26
      z0 hz0
    exact le_trans hle (le_of_eq hpos0)
  · rw [lowbitOf]
    refine le_foldl_min (g := fun z => ((mlutOf st).getD z (0, 0)).2) w 26 t ?_ ?_
    · have := (@mlutOf_pos_lt st _ (hz z0 hz0)).1
      omega
    · intro z hzw
      by_contra hlt
      push_neg at hlt
      have hbt : (remapMask (mlutOf st) w).testBit
          ((fun z => ((mlutOf st).getD z (0, 0)).2) z) = true :=
        (testBit_remapMask hz _).mpr ⟨z, hzw, rfl⟩
      have := hmin _ hlt
      rw [this] at hbt
      exact Bool.noConfusion hbt

theorem retained_mask_in_bucket {st : FilterSt} {w : List Nat} {t : Nat}
    (hw : w ∈ st.words) (hz : ∀ z ∈ w, z < 26)
    (ht : (remapMask (mlutOf st) w).testBit t = true)
    (hmin : ∀ i < t, (remapMask (mlutOf st) w).testBit i = false)
    (ht26 : t < 26) :
    remapMask (mlutOf st) w ∈ (lutsOf st).buckets.getD t [] := by
  have hlow := @lowbitOf_eq_least st _ _ hz ht hmin
  rw [← hlow]
  rw [lutsOf_eq]
  refine buildLuts_buckets_of_mem (mlutOf st) st.words _ ?_ w hw ?_
  · rfl
  · rw [hlow]
    exact ht26

/-! ### Construction of a selection chain from a disjoint cover -/

theorem chain_of_cover {st : FilterSt} :
    ∀ (n : Nat) (rem : List Nat), rem.length = n → ∀ (mask : Nat),
      (∀ m ∈ rem, ∃ w ∈ st.words, (∀ z ∈ w, z < 26) ∧
        m = remapMask (mlutOf st) w) →
      (∀ m ∈ rem, m ≠ 0) →
      rem.Pairwise (fun a b => a &&& b = 0) →
      (∀ m ∈ rem, mask &&& m = 0) →
      mask ||| unionMasks rem = 2 ^ 26 - 1 →
      mask < 2 ^ 27 →
      ∃ ext, ext.Perm rem ∧ SelChain (lutsOf st).buckets mask ext := by
  intro n
  induction n with
  | zero =>
    intro rem hlen mask _ _ _ _ _ _
    have hnil : rem = [] := List.length_eq_zero.mp hlen
    subst hnil
    exact ⟨[], List.Perm.refl _, SelChain.nil mask⟩
  | succ n ih =>
    intro rem hlen mask hret hnz hpw hdisj hfull hmask
    have hne : rem ≠ [] := by
      intro h
      rw [h] at hlen
      simp at hlen
    obtain ⟨m0, hm0⟩ := List.exists_mem_of_ne_nil rem hne
    obtain ⟨b0, hb0⟩ := Nat.ne_zero_implies_bit_true (hnz m0 hm0)
    have hm026 : m0 < 2 ^ 26 := by
      obtain ⟨w, hw, hwz, rfl⟩ := hret m0 hm0
      exact remapMask_lt hwz
    have hb026 : b0 < 26 := by
      by_contra hge
      push_neg at hge
      have hf : m0.testBit b0 = false := Nat.testBit_lt_two_pow
        (lt_of_lt_of_le hm026 (Nat.pow_le_pow_right (by norm_num) hge))
      rw [hf] at hb0
      exact Bool.noConfusion hb0
    have hmaskb0 : mask.testBit b0 = false := by
      cases hmb : mask.testBit b0
      · rfl
      · exact absurd ⟨hmb, hb0⟩ ((land_eq_zero_iff.mp (hdisj m0 hm0)) b0)
    have ht_le : trailingOnes mask ≤ b0 :=
      trailingOnes_le_of_testBit_false hmaskb0
    have ht26 : trailingOnes mask < 26 := by omega
    have hmaskt : mask.testBit (trailingOnes mask) = false :=
      testBit_trailingOnes (lt_of_lt_of_le hmask (by norm_num))
    have huniont : (unionMasks rem).testBit (trailingOnes mask) = true := by
      have hft : (mask ||| unionMasks rem).testBit (trailingOnes mask) = true := by
        rw [hfull, Nat.testBit_two_pow_sub_one]
        simp [ht26]
      rw [Nat.testBit_lor, hmaskt, Bool.false_or] at hft
      exact hft
    obtain ⟨m, hm, hmt⟩ := testBit_unionMasks.mp huniont
    obtain ⟨w, hw, hwz, rfl⟩ := hret m hm
    have hminbits : ∀ i < trailingOnes mask,
        (remapMask (mlutOf st) w).testBit i = false := by
      intro i hi
      have hmi := testBit_of_lt_trailingOnes hi
      cases hwi : (remapMask (mlutOf st) w).testBit i
      · rfl
      · exact absurd ⟨hmi, hwi⟩ ((land_eq_zero_iff.mp (hdisj _ hm)) i)
    have hbucket := retained_mask_in_bucket hw hwz hmt hminbits ht26
    have hsymm : Symmetric (fun a b : Nat => a &&& b = 0) := by
      intro a b hab
      rw [Nat.land_comm]
      exact hab
    have hperm0 : rem.Perm
        (remapMask (mlutOf st) w :: rem.erase (remapMask (mlutOf st) w)) :=
      List.perm_cons_erase hm
    have hpw2 := (hperm0.pairwise_iff fun {a b} hab => hsymm hab).mp hpw
    obtain ⟨hhead, htail⟩ := List.pairwise_cons.mp hpw2
    have hw26 : remapMask (mlutOf st) w < 2 ^ 26 := remapMask_lt hwz
    have hih := ih (rem.erase (remapMask (mlutOf st) w))
      (by rw [List.length_erase_of_mem hm, hlen]; rfl)
      (mask ||| remapMask (mlutOf st) w)
      (fun m' hm' => hret m' (List.mem_of_mem_erase hm'))
      (fun m' hm' => hnz m' (List.mem_of_mem_erase hm'))
      htail
      (by
        intro m' hm'
        rw [land_eq_zero_iff]
        rintro i ⟨hl, hr⟩
        rw [Nat.testBit_lor, Bool.or_eq_true] at hl
        rcases hl with hl | hl
        · exact (land_eq_zero_iff.mp
            (hdisj m' (List.mem_of_mem_erase hm'))) i ⟨hl, hr⟩
        · exact (land_eq_zero_iff.mp (hhead m' hm')) i ⟨hl, hr⟩)
      (by
        rw [Nat.lor_assoc, ← unionMasks_cons, ← unionMasks_perm hperm0, hfull])
      (Nat.bitwise_lt_two_pow hmask (lt_of_lt_of_le hw26 (by norm_num)))
    obtain ⟨ext', hperm', hchain'⟩ := hih
    refine ⟨remapMask (mlutOf st) w :: ext', ?_, ?_⟩
    · exact ((hperm'.cons _)).trans hperm0.symm
    · exact SelChain.cons mask _ ext' hbucket (hdisj _ hm) hchain'

/-! ### Claim C2: completeness of the seeded searches -/

/-- C2 (amended): every quintuple of retained words whose remapped masks
are pairwise disjoint and each have popcount 5 is reported, as some
ordering (the lowbit order), by at least one of the 27 seeded searches —
namely the seed of the one remapped bit the five masks leave unused.
(Without the popcount-5 condition this fails, see the counterexample.) -/
theorem c2_completeness_popcount5 (lines : List (List Nat)) (p : Pipe)
    (h : mkPipe lines = some p) (ms : List Nat) (hlen : ms.length = 5)
    (hret : ∀ m ∈ ms, m ∈ retainedMasks p)
    (hdisj : ms.Pairwise (fun a b => a &&& b = 0))
    (hpc : ∀ m ∈ ms, popcount m = 5) :
    ∃ i < 27, ∃ ext, ext.Perm ms ∧ ext ∈ runSeed p i := by
  obtain ⟨st, hst, rfl⟩ := mkPipe_eq h
  have hret2 : ∀ m ∈ ms, ∃ w ∈ st.words, (∀ z ∈ w, z < 26) ∧
      m = remapMask (mlutOf st) w := by
    intro m hm
    have hmem := hret m hm
    rw [retainedMasks, pipeOfSt_fst, pipeOfSt_mlut] at hmem
    obtain ⟨w, hw, rfl⟩ := List.mem_map.mp hmem
    exact ⟨w, hw, (filterRun_words_wf hst w hw).2, rfl⟩
  have hms26 : ∀ m ∈ ms, m < 2 ^ 26 := by
    intro m hm
    obtain ⟨w, hw, hwz, rfl⟩ := hret2 m hm
    exact remapMask_lt hwz
  have hnz : ∀ m ∈ ms, m ≠ 0 := by
    intro m hm h0
    have hp := hpc m hm
    rw [h0] at hp
    exact absurd hp (by decide)
  have hu26 : unionMasks ms < 2 ^ 26 := unionMasks_lt_two_pow hms26
  have hupc : popcount (unionMasks ms) = 25 := by
    rw [popcount_unionMasks hdisj hms26, sum_map_const_of hpc, hlen]
  have huf : (unionMasks ms).testBit (trailingOnes (unionMasks ms)) = false :=
    testBit_trailingOnes (lt_of_lt_of_le hu26 (by norm_num))
  have hult : trailingOnes (unionMasks ms) < 26 := by
    by_contra hge
    push_neg at hge
    have hall : ∀ i ∈ Finset.range 26, (unionMasks ms).testBit i = true := by
      intro i hi
      rw [Finset.mem_range] at hi
      exact testBit_of_lt_trailingOnes (by omega)
    have h26 : popcount (unionMasks ms) = 26 := by
      rw [popcount_eq_card_of_lt (by norm_num) hu26,
        Finset.filter_true_of_mem hall, Finset.card_range]
    omega
  have hother : ∀ i, i < 26 → i ≠ trailingOnes (unionMasks ms) →
      (unionMasks ms).testBit i = true := by
    intro i hi hne
    by_contra hf
    rw [Bool.not_eq_true] at hf
    have hsub : (Finset.range 26).filter
        (fun j => (unionMasks ms).testBit j = true) ⊆
        ((Finset.range 26).erase (trailingOnes (unionMasks ms))).erase i := by
      intro j hj
      rw [Finset.mem_filter] at hj
      rw [Finset.mem_erase, Finset.mem_erase]
      refine ⟨?_, ?_, hj.1⟩
      · intro hji
        subst hji
        rw [hf] at hj
        exact Bool.noConfusion hj.2
      · intro hju
        subst hju
        rw [huf] at hj
        exact Bool.noConfusion hj.2
    have hcard := Finset.card_le_card hsub
    rw [Finset.card_erase_of_mem (Finset.mem_erase.mpr
        ⟨hne, Finset.mem_range.mpr hi⟩),
      Finset.card_erase_of_mem (Finset.mem_range.mpr hult),
      Finset.card_range,
      ← popcount_eq_card_of_lt (by norm_num) hu26] at hcard
    omega
  have hdisju : ∀ m ∈ ms, 2 ^ trailingOnes (unionMasks ms) &&& m = 0 := by
    intro m hm
    rw [land_eq_zero_iff]
    rintro i ⟨hl, hr⟩
    rw [Nat.testBit_two_pow, decide_eq_true_eq] at hl
    subst hl
    have ht : (unionMasks ms).testBit (trailingOnes (unionMasks ms)) = true :=
      testBit_unionMasks.mpr ⟨m, hm, hr⟩
    rw [huf] at ht
    exact Bool.noConfusion ht
  have hcover : 2 ^ trailingOnes (unionMasks ms) ||| unionMasks ms =
      2 ^ 26 - 1 := by
    apply Nat.eq_of_testBit_eq
    intro i
    rw [Nat.testBit_lor, Nat.testBit_two_pow_sub_one]
    by_cases hi : i < 26
    · rw [decide_eq_true hi]
      by_cases hiu : i = trailingOnes (unionMasks ms)
      · subst hiu
        rw [Nat.testBit_two_pow_self, Bool.true_or]
      · rw [hother i hi hiu, Bool.or_true]
    · rw [decide_eq_false hi,
        Nat.testBit_two_pow_of_ne (by omega),
        Nat.testBit_lt_two_pow
          (lt_of_lt_of_le hu26 (Nat.pow_le_pow_right (by norm_num) (by omega))),
        Bool.or_false]
  obtain ⟨ext, hperm, hchain⟩ := @chain_of_cover st 5 ms hlen
    (2 ^ trailingOnes (unionMasks ms)) hret2 hnz hdisj hdisju hcover
    (Nat.pow_lt_pow_right (by norm_num) (by omega))
  refine ⟨trailingOnes (unionMasks ms), by omega, ext, hperm, ?_⟩
  rw [runSeed, pipeOfSt_buckets]
  have hlext : ext.length = 5 := by rw [hperm.length_eq, hlen]
  have hfin := searchF_complete_chain hchain hlext []
  simpa using hfin

/-- Witness for `c2_completeness_popcount5`: the disjoint popcount-5
quintuple of `DICT5` is reported by some seed. -/
theorem c2_completeness_popcount5_witness :
    ∃ i < 27, ∃ ext,
      ext.Perm ([62, 1984, 63488, 2031616, 65011712] : List Nat) ∧
      ext ∈ runSeed (pipeOfSt ⟨[32505856, 1015808, 31744, 992, 31],
        [[0, 1, 2, 3, 4], [5, 6, 7, 8, 9], [10, 11, 12, 13, 14],
         [15, 16, 17, 18, 19], [20, 21, 22, 23, 24]],
        [1, 1, 1, 1, 1, 1, 1, 1, 1, 1, 1, 1, 1, 1, 1, 1, 1, 1, 1, 1, 1, 1,
         1, 1, 1, 0]⟩) i :=
  c2_completeness_popcount5 DICT5 _ (by decide)
    [62, 1984, 63488, 2031616, 65011712] (by decide) (by decide) (by decide)
    (by decide)
